import Mathlib

/-!
Verification of the mutation planner/executor (`MutationsInterpreter.cpp`):
staging of DELETE/UPDATE commands, forward propagation of output-column sets,
backward synthesis of filter/update expressions, assembly of the streaming
pipeline, the touched-rows pre-check, and update-column validation.
-/

namespace ClickHouseMutations

/-- Expression tree nodes, modelling the `IAST` objects used by
`MutationsInterpreter` (`ASTIdentifier`, `ASTLiteral`, `ASTFunction` with its
argument `ASTExpressionList`). -/
inductive AST where
  | identifier (name : String)
  | literal (value : String)
  | func (name : String) (args : List AST)

mutual

/-- Decidable structural equality for expression trees. -/
def AST.decEq : (a b : AST) → Decidable (a = b)
  | AST.identifier x, AST.identifier y =>
      match String.decEq x y with
      | Decidable.isTrue h => Decidable.isTrue (by rw [h])
      | Decidable.isFalse h => Decidable.isFalse (by intro hh; cases hh; exact h rfl)
  | AST.identifier _, AST.literal _ => Decidable.isFalse (by intro hh; cases hh)
  | AST.identifier _, AST.func _ _ => Decidable.isFalse (by intro hh; cases hh)
  | AST.literal _, AST.identifier _ => Decidable.isFalse (by intro hh; cases hh)
  | AST.literal x, AST.literal y =>
      match String.decEq x y with
      | Decidable.isTrue h => Decidable.isTrue (by rw [h])
      | Decidable.isFalse h => Decidable.isFalse (by intro hh; cases hh; exact h rfl)
  | AST.literal _, AST.func _ _ => Decidable.isFalse (by intro hh; cases hh)
  | AST.func _ _, AST.identifier _ => Decidable.isFalse (by intro hh; cases hh)
  | AST.func _ _, AST.literal _ => Decidable.isFalse (by intro hh; cases hh)
  | AST.func f as, AST.func g bs =>
      match String.decEq f g with
      | Decidable.isFalse h1 => Decidable.isFalse (by intro hh; cases hh; exact h1 rfl)
      | Decidable.isTrue h1 =>
          match AST.decEqList as bs with
          | Decidable.isTrue h2 => Decidable.isTrue (by rw [h1, h2])
          | Decidable.isFalse h2 => Decidable.isFalse (by intro hh; cases hh; exact h2 rfl)

/-- Decidable structural equality for lists of expression trees. -/
def AST.decEqList : (as bs : List AST) → Decidable (as = bs)
  | [], [] => Decidable.isTrue rfl
  | [], _ :: _ => Decidable.isFalse (by intro hh; cases hh)
  | _ :: _, [] => Decidable.isFalse (by intro hh; cases hh)
  | a :: as, b :: bs =>
      match AST.decEq a b with
      | Decidable.isFalse h1 => Decidable.isFalse (by intro hh; cases hh; exact h1 rfl)
      | Decidable.isTrue h1 =>
          match AST.decEqList as bs with
          | Decidable.isTrue h2 => Decidable.isTrue (by rw [h1, h2])
          | Decidable.isFalse h2 => Decidable.isFalse (by intro hh; cases hh; exact h2 rfl)

end

instance : DecidableEq AST := AST.decEq

mutual

/-- Rendering of an AST into a result-column name, modelling `IAST::getColumnName`. -/
def AST.getColumnName : AST → String
  | AST.identifier name => name
  | AST.literal value => value
  | AST.func name args => name ++ "(" ++ AST.getColumnNameList args ++ ")"

/-- Rendering of an argument list inside `AST.getColumnName`. -/
def AST.getColumnNameList : List AST → String
  | [] => ""
  | [a] => AST.getColumnName a
  | a :: rest => AST.getColumnName a ++ ", " ++ AST.getColumnNameList rest

end

mutual

/-- Set of column identifiers referenced anywhere inside an expression tree. -/
def referencedColumns : AST → Finset String
  | AST.identifier name => {name}
  | AST.literal _ => ∅
  | AST.func _ args => referencedColumnsL args

/-- Set of column identifiers referenced by a list of expression trees. -/
def referencedColumnsL : List AST → Finset String
  | [] => ∅
  | a :: rest => referencedColumns a ∪ referencedColumnsL rest

end

mutual

/-- Evaluation of an expression tree over a single row, with the semantics the
expression engine gives to `if` (condition nonzero picks the then-branch) and
to `CAST` with a literal type name (applies the cast conversion `castTo`);
all other functions are interpreted by the environment `sem`, literals by
`litVal`, and identifiers read the row. -/
def evalExpr (sem : String → List Int → Int) (castTo : String → Int → Int)
    (litVal : String → Int) (row : String → Int) : AST → Int
  | AST.identifier name => row name
  | AST.literal v => litVal v
  | AST.func "if" [c, t, e] =>
      if evalExpr sem castTo litVal row c ≠ 0 then evalExpr sem castTo litVal row t
      else evalExpr sem castTo litVal row e
  | AST.func "CAST" [e, AST.literal ty] => castTo ty (evalExpr sem castTo litVal row e)
  | AST.func fname args => sem fname (evalExprList sem castTo litVal row args)

/-- Evaluation of a list of expression trees over a single row. -/
def evalExprList (sem : String → List Int → Int) (castTo : String → Int → Int)
    (litVal : String → Int) (row : String → Int) : List AST → List Int
  | [] => []
  | a :: rest =>
      evalExpr sem castTo litVal row a :: evalExprList sem castTo litVal row rest

end

/-- Command tags of `MutationCommand::Type`; `EMPTY` stands for any tag that is
neither `DELETE` nor `UPDATE`. -/
inductive CommandType where
  | EMPTY
  | DELETE
  | UPDATE
deriving DecidableEq, Repr

/-- One mutation command: a tag, an optional row predicate, and (for UPDATE)
the map from target column name to replacement expression, modelled as an
association list with unique keys. -/
structure MutationCommand where
  type : CommandType
  predicate : Option AST := none
  column_to_update_expression : List (String × AST) := []
deriving DecidableEq

/-- A physical column: name and declared type name. -/
structure Column where
  name : String
  type : String
deriving DecidableEq, Repr

/-- The storage's column lists (`getColumns().ordinary` / `.materialized`). -/
structure Storage where
  ordinary : List Column := []
  materialized : List Column := []
deriving DecidableEq, Repr

/-- All physical columns, modelling `getColumns().getAllPhysical()`. -/
def Storage.getAllPhysical (s : Storage) : List Column :=
  s.ordinary ++ s.materialized

/-- Declared type name of a column, modelling `storage->getColumn(name).type->getName()`. -/
def Storage.getColumnTypeName (s : Storage) (name : String) : String :=
  match s.getAllPhysical.find? (fun col => col.name == name) with
  | some col => col.type
  | none => ""

/-- Error codes raised by the interpreter. -/
inductive Error where
  | UNKNOWN_MUTATION_COMMAND
  | NO_SUCH_COLUMN_IN_TABLE
  | CANNOT_UPDATE_COLUMN
  | LOGICAL_ERROR (message : String)
deriving DecidableEq, Repr

/-- The context settings the interpreter reads or overrides. -/
structure Settings where
  max_threads : Nat := 8
  merge_tree_uniform_read_distribution : Nat := 1
  max_rows_to_transfer : Nat := 0
  max_bytes_to_transfer : Nat := 0
deriving DecidableEq, Repr

/-- Execution context holding the settings. -/
structure Context where
  settings : Settings := {}
deriving DecidableEq, Repr

/-- Check of a single UPDATE target column against the storage's columns
(body of the inner loop of `validateUpdateColumns`): present among ordinary
columns passes, present among materialized columns fails with
`CANNOT_UPDATE_COLUMN`, otherwise fails with `NO_SUCH_COLUMN_IN_TABLE`. -/
def checkUpdateColumn (storage : Storage) (column_name : String) : Except Error Unit :=
  if storage.ordinary.any (fun col => col.name == column_name) then Except.ok ()
  else if storage.materialized.any (fun col => col.name == column_name) then
    Except.error Error.CANNOT_UPDATE_COLUMN
  else Except.error Error.NO_SUCH_COLUMN_IN_TABLE

/-- Check of every target column of one UPDATE command, in map order; the
first failure propagates like the thrown exception. -/
def checkUpdateColumnsOf (storage : Storage) : List (String × AST) → Except Error Unit
  | [] => Except.ok ()
  | kv :: rest =>
      match checkUpdateColumn storage kv.1 with
      | Except.ok _ => checkUpdateColumnsOf storage rest
      | Except.error e => Except.error e

/-- Validation of all UPDATE commands' target columns, modelling the free
function `validateUpdateColumns`; commands that are not UPDATE are skipped. -/
def validateUpdateColumns (storage : Storage) : List MutationCommand → Except Error Unit
  | [] => Except.ok ()
  | command :: rest =>
      if command.type = CommandType.UPDATE then
        match checkUpdateColumnsOf storage command.column_to_update_expression with
        | Except.ok _ => validateUpdateColumns storage rest
        | Except.error e => Except.error e
      else validateUpdateColumns storage rest

/-- One step of a stage's expression chain, modelling the data of an
`ExpressionActionsChain::Step` that the streaming pipeline consumes: the
columns it computes and its required-output column list. -/
structure ExpressionStep where
  computed : List (String × AST) := []
  required_output : List String := []
deriving DecidableEq

/-- One stage of the mutation plan: its DELETE commands in insertion order, at
most one UPDATE command, the output-column set (`NameSet output_columns`), the
synthesized per-column update expressions (`column_to_updated`), the
synthesized delete-filter column names, and the expression chain. -/
structure Stage where
  deletes : List MutationCommand := []
  update : Option MutationCommand := none
  output_columns : Finset String := ∅
  column_to_updated : List (String × AST) := []
  delete_filter_column_names : List String := []
  expressions_chain : List ExpressionStep := []
deriving DecidableEq

/-- A freshly `emplace_back`-constructed stage. -/
def emptyStage : Stage := {}

/-- Staging loop of `prepare` (lines 135-153): `cur` is `stages.back()`, `done`
the earlier stages in order. A stage already holding an update is left before
processing the next command; a DELETE is appended to the current stage's
delete list; an UPDATE opens a new stage first when the current stage is stage
0; any other tag fails with `UNKNOWN_MUTATION_COMMAND`. -/
def stageLoop : Stage → List Stage → List MutationCommand → Except Error (List Stage)
  | cur, done, [] => Except.ok (done ++ [cur])
  | cur, done, command :: rest =>
      let cur' := if cur.update.isSome then emptyStage else cur
      let done' := if cur.update.isSome then done ++ [cur] else done
      if command.type = CommandType.DELETE then
        stageLoop { cur' with deletes := cur'.deletes ++ [command] } done' rest
      else if command.type = CommandType.UPDATE then
        if done'.isEmpty then
          stageLoop { emptyStage with update := some command } (done' ++ [cur']) rest
        else stageLoop { cur' with update := some command } done' rest
      else Except.error Error.UNKNOWN_MUTATION_COMMAND

/-- Breaking the command sequence into stages, starting from the single
default-constructed stage 0. -/
def stageCommands (commands : List MutationCommand) : Except Error (List Stage) :=
  stageLoop emptyStage [] commands

/-- Reference staging written from the claim's words, for comparison with the
source's staging loop. Commands are processed in original order against a
current stage (`isFirst` marks that the current stage is stage 0): a Delete is
appended to the current stage's delete list, except that a current stage
already holding an Update is closed first and the Delete starts the new
current stage's list; an Update encountered while the current stage is stage
0 or already holds an Update closes the current stage and fills the fresh
stage's update slot, and otherwise fills the current stage's slot; any other
tag fails with `UNKNOWN_MUTATION_COMMAND`. -/
def specGo (isFirst : Bool) (cur : Stage) : List MutationCommand → Except Error (List Stage)
  | [] => Except.ok [cur]
  | c :: rest =>
      if c.type = CommandType.DELETE then
        if cur.update.isSome then
          match specGo false { emptyStage with deletes := [c] } rest with
          | Except.ok further => Except.ok (cur :: further)
          | Except.error e => Except.error e
        else specGo isFirst { cur with deletes := cur.deletes ++ [c] } rest
      else if c.type = CommandType.UPDATE then
        if cur.update.isSome || isFirst then
          match specGo false { emptyStage with update := some c } rest with
          | Except.ok further => Except.ok (cur :: further)
          | Except.error e => Except.error e
        else specGo false { cur with update := some c } rest
      else Except.error Error.UNKNOWN_MUTATION_COMMAND

/-- Reference staging of a whole command list: start at an empty stage 0. -/
def specStaging (commands : List MutationCommand) : Except Error (List Stage) :=
  specGo true emptyStage commands

/-- The set of all physical column names. -/
def allColumnNames (all_columns : List Column) : Finset String :=
  (all_columns.map Column.name).toFinset

/-- Target column names of an UPDATE command. -/
def updateTargets (u : MutationCommand) : Finset String :=
  (u.column_to_update_expression.map Prod.fst).toFinset

/-- One iteration of the forward output-column pass (lines 156-173): a stage
with deletes outputs the full physical column set; otherwise it copies the
previous stage's set and, when it has an update and the set's size is still
below the physical column count, unions in the update's target column names. -/
def forwardStep (all_columns : List Column) (prev : Finset String) (st : Stage) : Stage :=
  if st.deletes.isEmpty then
    let oc :=
      match st.update with
      | some u => if prev.card < all_columns.length then prev ∪ updateTargets u else prev
      | none => prev
    { st with output_columns := oc }
  else { st with output_columns := allColumnNames all_columns }

/-- The forward output-column pass over all stages, threading each stage's
output set to its successor; `prev` starts empty for stage 0. -/
def forwardPass (all_columns : List Column) : List Stage → Finset String → List Stage
  | [], _ => []
  | st :: rest, prev =>
      let st' := forwardStep all_columns prev st
      st' :: forwardPass all_columns rest st'.output_columns

/-- Construction of an `ASTFunction` node, modelling `makeASTFunction`. -/
def makeASTFunction (name : String) (args : List AST) : AST :=
  AST.func name args

/-- The synthesized delete filter `NOT(predicate)` for one DELETE command
(line 187 and line 264). -/
def negatedPredicate (command : MutationCommand) : AST :=
  makeASTFunction "not" [command.predicate.getD (AST.literal "")]

/-- The synthesized per-column update expression (lines 198-203):
`CAST(if(update.predicate, update_expr, column), declared-type-name)`. -/
def updatedColumn (storage : Storage) (u : MutationCommand) (column : String)
    (update_expr : AST) : AST :=
  makeASTFunction "CAST"
    [makeASTFunction "if"
       [u.predicate.getD (AST.literal ""), update_expr, AST.identifier column],
     AST.literal (storage.getColumnTypeName column)]

/-- The synthesized delete filters of a stage, in stage (command) order. -/
def stageFilterAsts (st : Stage) : List AST :=
  st.deletes.map negatedPredicate

/-- The stage's `column_to_updated` map (lines 192-207): one synthesized
expression per (target column, replacement expression) pair of its update. -/
def columnToUpdated (storage : Storage) (st : Stage) : List (String × AST) :=
  match st.update with
  | none => []
  | some u =>
      u.column_to_update_expression.map (fun kv => (kv.1, updatedColumn storage u kv.1 kv.2))

/-- Enumeration of a name set in a canonical order (iteration order of the
`NameSet` is unspecified; a sorted enumeration models it). -/
def sortedNames (s : Finset String) : List String :=
  Quotient.lift (List.insertionSort (fun a b => a ≤ b))
    (fun l₁ l₂ (h : l₁.Perm l₂) =>
      List.eq_of_perm_of_sorted
        ((List.perm_insertionSort _ l₁).trans (h.trans (List.perm_insertionSort _ l₂).symm))
        (List.sorted_insertionSort _ l₁) (List.sorted_insertionSort _ l₂))
    s.val

/-- The stage's output columns as a list (iteration over the `NameSet`). -/
def sortedOutput (st : Stage) : List String :=
  sortedNames st.output_columns

/-- The delete-filter steps of a stage's chain: one step per delete filter. -/
def filterSteps (st : Stage) : List ExpressionStep :=
  (stageFilterAsts st).map (fun ast => { computed := [(ast.getColumnName, ast)] })

/-- The update step of a stage's chain, when the stage has an update: all
synthesized update expressions are evaluated and each target column is
replaced in place by its synthesized value (`ExpressionAction::copyColumn`
with `can_replace = true`). -/
def updateSteps (storage : Storage) (st : Stage) : List ExpressionStep :=
  match st.update with
  | none => []
  | some _ =>
      [{ computed :=
           (columnToUpdated storage st).map (fun kv => (kv.2.getColumnName, kv.2)) ++
           (columnToUpdated storage st).map
             (fun kv => (kv.1, AST.identifier kv.2.getColumnName)),
         required_output := sortedOutput st }]

/-- The final pruning step of a stage's chain (lines 240-242): its required
output is exactly the stage's output-column set. -/
def pruneStep (st : Stage) : ExpressionStep :=
  { required_output := sortedOutput st }

/-- Chain synthesis for one later stage (lines 179-242): filter steps in
delete order, then the update step if any, then the final pruning step; the
delete-filter column names are recorded in order. -/
def buildStageChain (storage : Storage) (st : Stage) : Stage :=
  { st with
    column_to_updated := columnToUpdated storage st
    delete_filter_column_names := (stageFilterAsts st).map AST.getColumnName
    expressions_chain := filterSteps st ++ updateSteps storage st ++ [pruneStep st] }

/-- Modelled from the spec: the set of input columns the first step of a
stage's finalized expression chain requires. `ExpressionAnalyzer`,
`ExpressionActionsChain::finalize` and `getRequiredColumnsWithTypes` are not
part of this source unit; per the spec, the step-building evaluator is seeded
with all synthesized filter expressions, all synthesized update expressions
and a bare reference to every column of the stage's output set, so the first
step requires every column referenced by the synthesized delete-filter and
update expressions together with every output column. -/
def chainFirstStepRequired (storage : Storage) (st : Stage) : Finset String :=
  referencedColumnsL (stageFilterAsts st) ∪
    referencedColumnsL ((columnToUpdated storage st).map Prod.snd) ∪
    st.output_columns

/-- Body of the backward pass over the reversed stage list (`st` is the
stage currently processed, `rest` the stages before it, reversed): every
stage except the final one (stage 0) gets its chain built, then the previous
stage's output set is unioned with the columns the chain's first step
requires as input. -/
def backwardGo (storage : Storage) : Stage → List Stage → List Stage
  | st, [] => [st]
  | st, prev :: rest =>
      let built := buildStageChain storage st
      let prev' :=
        { prev with
          output_columns := prev.output_columns ∪ chainFirstStepRequired storage built }
      built :: backwardGo storage prev' rest

/-- Backward pass of `prepare` (lines 177-249) over the reversed stage list
(head = last stage). -/
def backwardGoRev (storage : Storage) : List Stage → List Stage
  | [] => []
  | st :: rest => backwardGo storage st rest

/-- Backward pass on the forward-ordered stage list. -/
def backwardPass (storage : Storage) (stages : List Stage) : List Stage :=
  (backwardGoRev storage stages.reverse).reverse

/-- A `SELECT` query: the projection list and the optional WHERE expression. -/
structure ASTSelectQuery where
  select_expression_list : List AST := []
  where_expression : Option AST := none
deriving DecidableEq

/-- WHERE clause of the stage-0 read query (lines 260-280): absent without
deletes, the lone negated predicate for one delete, and the AND-combination of
the negated predicates, in stage order, for several. -/
def firstStageWhere (deletes : List MutationCommand) : Option AST :=
  match deletes.map negatedPredicate with
  | [] => none
  | [f] => some f
  | fs => some (makeASTFunction "and" fs)

/-- The stage-0 read query (lines 253-280): projects exactly stage 0's output
columns and filters by the combined negated delete predicates. -/
def firstStageSelect (st0 : Stage) : ASTSelectQuery :=
  { select_expression_list := (sortedOutput st0).map AST.identifier
    where_expression := firstStageWhere st0.deletes }

/-- Result of `prepare`: the stage list and the stage-0 read query. -/
structure PrepareResult where
  stages : List Stage
  select : ASTSelectQuery
deriving DecidableEq

/-- The `prepare` operation (lines 123-285): rejects a second call and an
empty command list, validates UPDATE target columns, breaks the commands into
stages, runs the forward output-column pass and the backward chain-building
pass, and builds the stage-0 read query. The `dry_run` flag only controls
whether collaborator engines execute, never the shape of the plan. -/
def prepare (storage : Storage) (_context : Context) (commands : List MutationCommand)
    (is_prepared : Bool) (_dry_run : Bool) : Except Error PrepareResult :=
  if is_prepared then
    Except.error (Error.LOGICAL_ERROR "MutationsInterpreter is already prepared. It is a bug.")
  else if commands.isEmpty then
    Except.error (Error.LOGICAL_ERROR "Empty mutation commands list")
  else
    match validateUpdateColumns storage commands with
    | Except.error e => Except.error e
    | Except.ok _ =>
        match stageCommands commands with
        | Except.error e => Except.error e
        | Except.ok staged =>
            let all_columns := storage.getAllPhysical
            let stages := backwardPass storage (forwardPass all_columns staged ∅)
            Except.ok
              { stages := stages
                select := firstStageSelect (stages.headD emptyStage) }

/-- First block read from the count-query result stream: its row count and
the value of the `count()` column at row 0. -/
structure Block where
  rows : Nat := 0
  countValue : Nat := 0
deriving DecidableEq, Repr

/-- The context copy used for the existence check (lines 68-70): the stored
context with `merge_tree_uniform_read_distribution = 0` and `max_threads = 1`. -/
def touchedReadContext (c : Context) : Context :=
  { c with
    settings :=
      { c.settings with merge_tree_uniform_read_distribution := 0, max_threads := 1 } }

/-- The `SELECT count()` query of the existence check (lines 43-66): WHERE is
the lone command's predicate for a single command, and the OR-combination of
every command's predicate otherwise. -/
def touchedCountQuery (commands : List MutationCommand) : ASTSelectQuery :=
  { select_expression_list := [makeASTFunction "count" []]
    where_expression :=
      match commands with
      | [command] => command.predicate
      | _ => some (makeASTFunction "or" (commands.filterMap MutationCommand.predicate)) }

/-- The interpreter's stored state: the command list, the stored context, the
stage list and the prepared flag. -/
structure MutationsInterpreterState where
  commands : List MutationCommand := []
  context : Context := {}
  stages : List Stage := []
  is_prepared : Bool := false

/-- The `isStorageTouchedByMutations` check (lines 27-84), a `const` method
embedded as a state transformer returning its result and the (unchanged)
state; `execQuery` stands for the collaborator executing a select query under
a given context and returning the first block of its result stream. Empty
command list gives false; any command without predicate gives true with no
query run; otherwise the count query runs on a settings-copy and the first
block decides: zero rows false, one row `count != 0`, anything else a
`LOGICAL_ERROR`. -/
def isStorageTouchedByMutations (s : MutationsInterpreterState)
    (execQuery : ASTSelectQuery → Context → Block) :
    Except Error Bool × MutationsInterpreterState :=
  if s.commands.isEmpty then (Except.ok false, s)
  else if s.commands.any (fun c => c.predicate.isNone) then (Except.ok true, s)
  else
    let select := touchedCountQuery s.commands
    let context_copy := touchedReadContext s.context
    let block := execQuery select context_copy
    if block.rows = 0 then (Except.ok false, s)
    else if block.rows ≠ 1 then
      (Except.error
        (Error.LOGICAL_ERROR
          ("count() expression returned " ++ toString block.rows ++ " rows, not 1")), s)
    else (Except.ok (block.countValue != 0), s)

/-- Modelled from the spec: effect of one chain step on the stream's column
set (`FilterBlockInputStream` / `ExpressionBlockInputStream` are not part of
this source unit). A delete-filter step computes its helper column, filters,
and drops the helper column; any other step's output is pruned to its
required-output list. The accumulator carries the step index. -/
def stepHeaderFold (filter_names : List String) (acc : Finset String × Nat)
    (step : ExpressionStep) : Finset String × Nat :=
  match acc with
  | (h, i) =>
      if i < filter_names.length then
        ((h ∪ {filter_names.getD i ""}) \ {filter_names.getD i ""}, i + 1)
      else (step.required_output.toFinset, i + 1)

/-- Column set of the stream after one later stage's chain. -/
def stageHeader (h : Finset String) (st : Stage) : Finset String :=
  (st.expressions_chain.foldl (stepHeaderFold st.delete_filter_column_names) (h, 0)).1

/-- Column set of the stream after `addStreamsForLaterStages` (lines 287-320):
the chains of stages 1 and later applied to the stage-0 stream; the final
materialization step leaves the column set unchanged. -/
def addStreamsForLaterStagesHeader (stages : List Stage) (h : Finset String) : Finset String :=
  (stages.drop 1).foldl stageHeader h

/-- Column set produced by a select query's projection. -/
def selectHeader (q : ASTSelectQuery) : Finset String :=
  (q.select_expression_list.map AST.getColumnName).toFinset

/-- Column set of the stream returned by `execute()` (lines 330-335):
`prepare(dry_run = false)`, the stage-0 read, then the later stages. -/
def executeHeader (storage : Storage) (context : Context)
    (commands : List MutationCommand) (is_prepared : Bool) :
    Except Error (Finset String) :=
  match prepare storage context commands is_prepared false with
  | Except.error e => Except.error e
  | Except.ok p =>
      Except.ok (addStreamsForLaterStagesHeader p.stages (selectHeader p.select))

/-- Column set of the header inspected by `validate()` (lines 322-328):
`prepare(dry_run = true)`, the stage-0 sample header, then the later stages. -/
def validateHeader (storage : Storage) (context : Context)
    (commands : List MutationCommand) (is_prepared : Bool) :
    Except Error (Finset String) :=
  match prepare storage context commands is_prepared true with
  | Except.error e => Except.error e
  | Except.ok p =>
      Except.ok (addStreamsForLaterStagesHeader p.stages (selectHeader p.select))

/-- Example storage with two ordinary Int32 columns `a` and `b`. -/
def exStorage : Storage :=
  { ordinary := [{ name := "a", type := "Int32" }, { name := "b", type := "Int32" }] }

/-- Example storage with an ordinary column `a` and a materialized column `m`. -/
def exStorageMat : Storage :=
  { ordinary := [{ name := "a", type := "Int32" }]
    materialized := [{ name := "m", type := "Int32" }] }

/-- Example command `UPDATE a = plus(a, 1) WHERE greater(b, 0)`. -/
def exUpdateCommand : MutationCommand :=
  { type := CommandType.UPDATE
    predicate := some (AST.func "greater" [AST.identifier "b", AST.literal "0"])
    column_to_update_expression := [("a", AST.func "plus" [AST.identifier "a", AST.literal "1"])] }

/-- Example command `DELETE WHERE less(a, 0)`. -/
def exDeleteCommand : MutationCommand :=
  { type := CommandType.DELETE
    predicate := some (AST.func "less" [AST.identifier "a", AST.literal "0"]) }

/-- Example command with an unsupported tag. -/
def exEmptyCommand : MutationCommand :=
  { type := CommandType.EMPTY }

/-- Example command updating the materialized column `m`. -/
def exUpdateMatCommand : MutationCommand :=
  { type := CommandType.UPDATE
    predicate := some (AST.literal "1")
    column_to_update_expression := [("m", AST.literal "0")] }

/-- Stage list produced by `prepare` on the single-update example. -/
def exUpdateStages : List Stage :=
  match prepare exStorage {} [exUpdateCommand] false false with
  | Except.ok p => p.stages
  | Except.error _ => []

/-- Result of `prepare` on given inputs, with a default on error. -/
def preparedOf (storage : Storage) (commands : List MutationCommand) : PrepareResult :=
  match prepare storage {} commands false false with
  | Except.ok p => p
  | Except.error _ => { stages := [], select := {} }

/-- Stage list produced by staging alone, with a default on error. -/
def stagedOf (commands : List MutationCommand) : List Stage :=
  match stageCommands commands with
  | Except.ok sts => sts
  | Except.error _ => []

/-- C10: `isStorageTouchedByMutations` leaves the interpreter's state
unchanged: the forced single-threaded, non-distributed read settings
(`max_threads = 1`, `merge_tree_uniform_read_distribution = 0`) live only on
the local context copy handed to the select interpreter, the stored context's
other settings are carried over to that copy unchanged, and the stored
context, command list, stage list and prepared flag are identical before and
after the call, for every command list and every query oracle. -/
theorem touched_frame (s : MutationsInterpreterState)
    (execQuery : ASTSelectQuery → Context → Block) :
    (isStorageTouchedByMutations s execQuery).2 = s ∧
    (touchedReadContext s.context).settings.max_threads = 1 ∧
    (touchedReadContext s.context).settings.merge_tree_uniform_read_distribution = 0 ∧
    (touchedReadContext s.context).settings.max_rows_to_transfer
      = s.context.settings.max_rows_to_transfer ∧
    (touchedReadContext s.context).settings.max_bytes_to_transfer
      = s.context.settings.max_bytes_to_transfer ∧
    (isStorageTouchedByMutations s execQuery).2.commands = s.commands ∧
    (isStorageTouchedByMutations s execQuery).2.context = s.context ∧
    (isStorageTouchedByMutations s execQuery).2.stages = s.stages ∧
    (isStorageTouchedByMutations s execQuery).2.is_prepared = s.is_prepared := by
  have hsnd : (isStorageTouchedByMutations s execQuery).2 = s := by
    simp only [isStorageTouchedByMutations]
    repeat' split <;> try rfl
  exact ⟨hsnd, rfl, rfl, rfl, rfl, by rw [hsnd], by rw [hsnd], by rw [hsnd], by rw [hsnd]⟩

/-- C7: the existence check returns false on the empty command list; returns
true, for every query oracle, when some command has no predicate; and
otherwise runs one `SELECT count()` query whose WHERE clause is the lone
command's predicate for a single command and the OR-combination of all
commands' predicates otherwise, mapping a first block with zero rows to
false, one row to `count != 0`, and any other row count to a
`LOGICAL_ERROR`. -/
theorem touched_semantics (s : MutationsInterpreterState)
    (execQuery : ASTSelectQuery → Context → Block) :
    (s.commands = [] → (isStorageTouchedByMutations s execQuery).1 = Except.ok false) ∧
    ((∃ c ∈ s.commands, c.predicate = none) →
      (isStorageTouchedByMutations s execQuery).1 = Except.ok true) ∧
    (touchedCountQuery s.commands).select_expression_list = [AST.func "count" []] ∧
    (∀ c p, s.commands = [c] → c.predicate = some p →
      (touchedCountQuery s.commands).where_expression = some p) ∧
    (2 ≤ s.commands.length →
      (touchedCountQuery s.commands).where_expression =
        some (AST.func "or" (s.commands.filterMap MutationCommand.predicate))) ∧
    (s.commands ≠ [] → (∀ c ∈ s.commands, c.predicate ≠ none) →
      ((execQuery (touchedCountQuery s.commands) (touchedReadContext s.context)).rows = 0 →
        (isStorageTouchedByMutations s execQuery).1 = Except.ok false) ∧
      ((execQuery (touchedCountQuery s.commands) (touchedReadContext s.context)).rows = 1 →
        (isStorageTouchedByMutations s execQuery).1 =
          Except.ok
            ((execQuery (touchedCountQuery s.commands)
                (touchedReadContext s.context)).countValue != 0)) ∧
      (2 ≤ (execQuery (touchedCountQuery s.commands) (touchedReadContext s.context)).rows →
        (isStorageTouchedByMutations s execQuery).1 =
          Except.error
            (Error.LOGICAL_ERROR
              ("count() expression returned "
                ++ toString
                    (execQuery (touchedCountQuery s.commands)
                      (touchedReadContext s.context)).rows
                ++ " rows, not 1")))) := by
  constructor
  · intro h
    simp [isStorageTouchedByMutations, h]
  constructor
  · intro h
    have hne : s.commands.isEmpty = false := by
      rcases h with ⟨c, hc, _⟩
      cases hl : s.commands with
      | nil => rw [hl] at hc; cases hc
      | cons a as => simp [List.isEmpty]
    have hany : s.commands.any (fun c => c.predicate.isNone) = true := by
      rw [List.any_eq_true]
      rcases h with ⟨c, hc, hp⟩
      exact ⟨c, hc, by simp [hp]⟩
    simp [isStorageTouchedByMutations, hne, hany]
  refine ⟨rfl, ?_, ?_, ?_⟩
  · intro c p hl hp
    simp [touchedCountQuery, hl, hp]
  · intro hlen
    have : ∀ c, s.commands ≠ [c] := by
      intro c hc
      rw [hc] at hlen
      simp at hlen
    unfold touchedCountQuery
    cases hl : s.commands with
    | nil => rw [hl] at hlen; simp at hlen
    | cons a as =>
      cases as with
      | nil => exact absurd hl (this a)
      | cons b bs => rfl
  · intro hne hall
    have hempty : s.commands.isEmpty = false := by
      cases hl : s.commands with
      | nil => exact absurd hl hne
      | cons a as => simp [List.isEmpty]
    have hany : s.commands.any (fun c => c.predicate.isNone) = false := by
      rw [List.any_eq_false]
      intro c hc
      have := hall c hc
      simp [Option.isNone_iff_eq_none]
      exact this
    refine ⟨?_, ?_, ?_⟩
    · intro hrows
      simp [isStorageTouchedByMutations, hempty, hany, hrows]
    · intro hrows
      simp [isStorageTouchedByMutations, hempty, hany, hrows]
    · intro hrows
      have h0 : (execQuery (touchedCountQuery s.commands)
          (touchedReadContext s.context)).rows ≠ 0 := by omega
      have h1 : (execQuery (touchedCountQuery s.commands)
          (touchedReadContext s.context)).rows ≠ 1 := by omega
      simp [isStorageTouchedByMutations, hempty, hany, h0, h1]

/-- Witness for the C7 theorem at concrete inputs: the empty command list
yields false and a predicate-less command yields true. -/
theorem touched_semantics_witness :
    (isStorageTouchedByMutations { commands := [] } (fun _ _ => {})).1 = Except.ok false ∧
    (isStorageTouchedByMutations { commands := [exEmptyCommand] }
        (fun _ _ => {})).1 = Except.ok true :=
  ⟨(touched_semantics { commands := [] } (fun _ _ => {})).1 rfl,
   (touched_semantics { commands := [exEmptyCommand] } (fun _ _ => {})).2.1
     ⟨exEmptyCommand, by simp, rfl⟩⟩

/-- Membership form of the `any` scans over a column list. -/
theorem any_name_eq_mem (l : List Column) (n : String) :
    l.any (fun col => col.name == n) = true ↔ n ∈ l.map Column.name := by
  rw [List.any_eq_true]
  constructor
  · rintro ⟨col, hcol, hbeq⟩
    exact List.mem_map.2 ⟨col, hcol, by simpa using hbeq⟩
  · intro hm
    rcases List.mem_map.1 hm with ⟨col, hcol, hname⟩
    exact ⟨col, hcol, by simpa using hname⟩

/-- Unfolding equation for `checkUpdateColumnsOf` on a cons cell. -/
theorem checkUpdateColumnsOf_cons (storage : Storage) (kv : String × AST)
    (rest : List (String × AST)) :
    checkUpdateColumnsOf storage (kv :: rest) =
      match checkUpdateColumn storage kv.1 with
      | Except.ok _ => checkUpdateColumnsOf storage rest
      | Except.error e => Except.error e := rfl

/-- Unfolding equation for `validateUpdateColumns` on a cons cell. -/
theorem validateUpdateColumns_cons (storage : Storage) (c : MutationCommand)
    (rest : List MutationCommand) :
    validateUpdateColumns storage (c :: rest) =
      if c.type = CommandType.UPDATE then
        match checkUpdateColumnsOf storage c.column_to_update_expression with
        | Except.ok _ => validateUpdateColumns storage rest
        | Except.error e => Except.error e
      else validateUpdateColumns storage rest := rfl

/-- A single target column check passes exactly when the column is ordinary. -/
theorem checkUpdateColumn_ok_iff (storage : Storage) (n : String) :
    checkUpdateColumn storage n = Except.ok () ↔ n ∈ storage.ordinary.map Column.name := by
  unfold checkUpdateColumn
  by_cases h : n ∈ storage.ordinary.map Column.name
  · rw [if_pos ((any_name_eq_mem _ _).2 h)]
    exact iff_of_true rfl h
  · rw [if_neg (by rw [any_name_eq_mem]; exact h)]
    split
    · exact iff_of_false (by intro hh; cases hh) h
    · exact iff_of_false (by intro hh; cases hh) h

/-- The per-command column scan passes exactly when every target is ordinary. -/
theorem checkUpdateColumnsOf_ok_iff (storage : Storage) (l : List (String × AST)) :
    checkUpdateColumnsOf storage l = Except.ok () ↔
      ∀ kv ∈ l, kv.1 ∈ storage.ordinary.map Column.name := by
  induction l with
  | nil => simp [checkUpdateColumnsOf]
  | cons kv rest ih =>
    rw [checkUpdateColumnsOf_cons]
    cases h : checkUpdateColumn storage kv.1 with
    | ok u =>
      have hmem : kv.1 ∈ storage.ordinary.map Column.name := by
        cases u
        exact (checkUpdateColumn_ok_iff storage kv.1).1 h
      rw [ih]
      constructor
      · intro hrest kv' hkv'
        rcases List.mem_cons.1 hkv' with h1 | h1
        · rw [h1]; exact hmem
        · exact hrest kv' h1
      · intro hall kv' hkv'
        exact hall kv' (List.mem_cons_of_mem _ hkv')
    | error e =>
      have hmem : kv.1 ∉ storage.ordinary.map Column.name := by
        intro hm
        rw [(checkUpdateColumn_ok_iff storage kv.1).2 hm] at h
        cases h
      refine iff_of_false (by intro hh; cases hh) ?_
      intro hall
      exact hmem (hall kv (List.mem_cons_self kv rest))

/-- Validation passes exactly when every UPDATE target is an ordinary column. -/
theorem validateUpdateColumns_ok_iff (storage : Storage) (commands : List MutationCommand) :
    validateUpdateColumns storage commands = Except.ok () ↔
      ∀ c ∈ commands, c.type = CommandType.UPDATE →
        ∀ kv ∈ c.column_to_update_expression, kv.1 ∈ storage.ordinary.map Column.name := by
  induction commands with
  | nil => simp [validateUpdateColumns]
  | cons c rest ih =>
    rw [validateUpdateColumns_cons]
    by_cases hc : c.type = CommandType.UPDATE
    · rw [if_pos hc]
      cases h : checkUpdateColumnsOf storage c.column_to_update_expression with
      | ok u =>
        have hall : ∀ kv ∈ c.column_to_update_expression,
            kv.1 ∈ storage.ordinary.map Column.name := by
          cases u
          exact (checkUpdateColumnsOf_ok_iff storage _).1 h
        rw [ih]
        constructor
        · intro hrest c' hmem hu'
          rcases List.mem_cons.1 hmem with h1 | h1
          · rw [h1]; exact hall
          · exact hrest c' h1 hu'
        · intro hA c' hmem hu'
          exact hA c' (List.mem_cons_of_mem _ hmem) hu'
      | error e =>
        refine iff_of_false (by intro hh; cases hh) ?_
        intro hA
        have : checkUpdateColumnsOf storage c.column_to_update_expression = Except.ok () :=
          (checkUpdateColumnsOf_ok_iff storage _).2
            (fun kv hkv => hA c (List.mem_cons_self c rest) hc kv hkv)
        rw [this] at h
        cases h
    · rw [if_neg hc, ih]
      constructor
      · intro hrest c' hmem hu'
        rcases List.mem_cons.1 hmem with h1 | h1
        · rw [h1] at hu'; exact absurd hu' hc
        · exact hrest c' h1 hu'
      · intro hA c' hmem hu'
        exact hA c' (List.mem_cons_of_mem _ hmem) hu'

/-- Validation only looks at UPDATE commands: filtering out everything else
leaves the result unchanged. -/
theorem validateUpdateColumns_filter (storage : Storage) (commands : List MutationCommand) :
    validateUpdateColumns storage commands =
      validateUpdateColumns storage
        (commands.filter (fun c => decide (c.type = CommandType.UPDATE))) := by
  induction commands with
  | nil => rfl
  | cons c rest ih =>
    by_cases hc : c.type = CommandType.UPDATE
    · rw [List.filter_cons_of_pos (by simpa using hc), validateUpdateColumns_cons,
        validateUpdateColumns_cons, if_pos hc, if_pos hc, ih]
    · rw [List.filter_cons_of_neg (by simpa using hc), validateUpdateColumns_cons,
        if_neg hc, ih]

/-- A validation error surfaces unchanged from `prepare`, for either value of
the dry-run flag, whenever the command list is nonempty. -/
theorem prepare_validation_error (storage : Storage) (ctx : Context)
    (commands : List MutationCommand) (e : Error) (dry_run : Bool)
    (h : validateUpdateColumns storage commands = Except.error e)
    (hne : commands ≠ []) :
    prepare storage ctx commands false dry_run = Except.error e := by
  have hempty : commands.isEmpty = false := by
    cases commands with
    | nil => exact absurd rfl hne
    | cons a as => simp [List.isEmpty]
  simp [prepare, hempty, h]

/-- C9: each UPDATE target column passes validation when ordinary, fails with
`CANNOT_UPDATE_COLUMN` when only materialized, and with
`NO_SUCH_COLUMN_IN_TABLE` when in neither list; non-UPDATE commands are never
subject to the check; validation succeeds exactly when every UPDATE target is
ordinary; and a validation error is the result of `prepare` for both the
dry-run (`validate`) and the non-dry-run (`execute`) invocation, before any
staging happens. -/
theorem validate_update_columns_spec (storage : Storage) (ctx : Context)
    (commands : List MutationCommand) :
    (∀ n, n ∈ storage.ordinary.map Column.name →
      checkUpdateColumn storage n = Except.ok ()) ∧
    (∀ n, n ∉ storage.ordinary.map Column.name → n ∈ storage.materialized.map Column.name →
      checkUpdateColumn storage n = Except.error Error.CANNOT_UPDATE_COLUMN) ∧
    (∀ n, n ∉ storage.ordinary.map Column.name → n ∉ storage.materialized.map Column.name →
      checkUpdateColumn storage n = Except.error Error.NO_SUCH_COLUMN_IN_TABLE) ∧
    validateUpdateColumns storage commands =
      validateUpdateColumns storage
        (commands.filter (fun c => decide (c.type = CommandType.UPDATE))) ∧
    (validateUpdateColumns storage commands = Except.ok () ↔
      ∀ c ∈ commands, c.type = CommandType.UPDATE →
        ∀ kv ∈ c.column_to_update_expression, kv.1 ∈ storage.ordinary.map Column.name) ∧
    (∀ e, validateUpdateColumns storage commands = Except.error e → commands ≠ [] →
      ∀ dry_run, prepare storage ctx commands false dry_run = Except.error e) := by
  refine ⟨?_, ?_, ?_, validateUpdateColumns_filter storage commands,
    validateUpdateColumns_ok_iff storage commands,
    fun e he hne dry_run => prepare_validation_error storage ctx commands e dry_run he hne⟩
  · intro n hn
    exact (checkUpdateColumn_ok_iff storage n).2 hn
  · intro n hn hm
    unfold checkUpdateColumn
    rw [if_neg (by rw [any_name_eq_mem]; exact hn),
      if_pos ((any_name_eq_mem _ _).2 hm)]
  · intro n hn hm
    unfold checkUpdateColumn
    rw [if_neg (by rw [any_name_eq_mem]; exact hn),
      if_neg (by rw [any_name_eq_mem]; exact hm)]

/-- Witness for the C9 theorem: updating the materialized column `m` makes
`prepare` fail with `CANNOT_UPDATE_COLUMN` under both dry-run flags. -/
theorem validate_update_columns_spec_witness :
    prepare exStorageMat {} [exUpdateMatCommand] false true
        = Except.error Error.CANNOT_UPDATE_COLUMN ∧
    prepare exStorageMat {} [exUpdateMatCommand] false false
        = Except.error Error.CANNOT_UPDATE_COLUMN :=
  ⟨(validate_update_columns_spec exStorageMat {} [exUpdateMatCommand]).2.2.2.2.2
      Error.CANNOT_UPDATE_COLUMN rfl (by simp) true,
   (validate_update_columns_spec exStorageMat {} [exUpdateMatCommand]).2.2.2.2.2
      Error.CANNOT_UPDATE_COLUMN rfl (by simp) false⟩

/-- The staging loop keeps stage 0 free of updates: if the first stage of the
accumulated list has no update, neither has the first stage of the result. -/
theorem stageLoop_head_update (commands : List MutationCommand) :
    ∀ cur done sts, stageLoop cur done commands = Except.ok sts →
      ((done ++ [cur]).headD emptyStage).update = none →
      (sts.headD emptyStage).update = none := by
  induction commands with
  | nil =>
    intro cur done sts h hinv
    rw [stageLoop] at h
    injection h with h
    rw [← h]
    exact hinv
  | cons command rest ih =>
    intro cur done sts h hinv
    rw [stageLoop] at h
    by_cases hupd : cur.update.isSome
    · have hdonene : done ≠ [] := by
        intro hd
        subst hd
        simp only [List.nil_append, List.headD_cons] at hinv
        rw [hinv] at hupd
        simp at hupd
      obtain ⟨d, ds, rfl⟩ := List.exists_cons_of_ne_nil hdonene
      simp only [hupd, if_true] at h
      by_cases hdel : command.type = CommandType.DELETE
      · rw [if_pos hdel] at h
        exact ih _ _ _ h hinv
      · rw [if_neg hdel] at h
        by_cases hupd2 : command.type = CommandType.UPDATE
        · rw [if_pos hupd2] at h
          split at h
          · exact ih _ _ _ h hinv
          · exact ih _ _ _ h hinv
        · rw [if_neg hupd2] at h
          exact Except.noConfusion h
    · simp only [hupd, if_false, Bool.false_eq_true] at h
      by_cases hdel : command.type = CommandType.DELETE
      · rw [if_pos hdel] at h
        cases done with
        | nil => exact ih _ _ _ h hinv
        | cons d ds => exact ih _ _ _ h hinv
      · rw [if_neg hdel] at h
        by_cases hupd2 : command.type = CommandType.UPDATE
        · rw [if_pos hupd2] at h
          cases done with
          | nil =>
            rw [if_pos (by simp [List.isEmpty])] at h
            exact ih _ _ _ h hinv
          | cons d ds =>
            rw [if_neg (by simp [List.isEmpty])] at h
            exact ih _ _ _ h hinv
        · rw [if_neg hupd2] at h
          exact Except.noConfusion h

/-- The staging loop appends every DELETE command, in order, to the deletes
list of the then-current stage: the concatenation of all stages' delete lists
equals the DELETE-filtered command list. -/
theorem stageLoop_deletes (commands : List MutationCommand) :
    ∀ cur done sts, stageLoop cur done commands = Except.ok sts →
      (sts.map Stage.deletes).flatten =
        ((done ++ [cur]).map Stage.deletes).flatten
          ++ commands.filter (fun c => decide (c.type = CommandType.DELETE)) := by
  induction commands with
  | nil =>
    intro cur done sts h
    rw [stageLoop] at h
    injection h with h
    rw [← h]
    simp
  | cons command rest ih =>
    intro cur done sts h
    rw [stageLoop] at h
    by_cases hupd : cur.update.isSome <;>
      simp only [hupd, if_true, if_false, Bool.false_eq_true] at h
    · by_cases hdel : command.type = CommandType.DELETE
      · rw [if_pos hdel] at h
        rw [ih _ _ _ h, List.filter_cons_of_pos (by simp [hdel])]
        simp [emptyStage]
      · rw [if_neg hdel] at h
        by_cases hupd2 : command.type = CommandType.UPDATE
        · rw [if_pos hupd2] at h
          split at h <;>
          · rw [ih _ _ _ h, List.filter_cons_of_neg (by simp [hdel])]
            simp [emptyStage]
        · rw [if_neg hupd2] at h
          exact Except.noConfusion h
    · by_cases hdel : command.type = CommandType.DELETE
      · rw [if_pos hdel] at h
        rw [ih _ _ _ h, List.filter_cons_of_pos (by simp [hdel])]
        simp
      · rw [if_neg hdel] at h
        by_cases hupd2 : command.type = CommandType.UPDATE
        · rw [if_pos hupd2] at h
          split at h <;>
          · rw [ih _ _ _ h, List.filter_cons_of_neg (by simp [hdel])]
            simp [emptyStage]
        · rw [if_neg hupd2] at h
          exact Except.noConfusion h

/-- The staging loop gives every UPDATE command its own update slot, in
order: the stages' update fields, in stage order, are exactly the
UPDATE-filtered command list (so no stage ever holds two updates). -/
theorem stageLoop_updates (commands : List MutationCommand) :
    ∀ cur done sts, stageLoop cur done commands = Except.ok sts →
      sts.filterMap Stage.update =
        ((done ++ [cur]).filterMap Stage.update)
          ++ commands.filter (fun c => decide (c.type = CommandType.UPDATE)) := by
  induction commands with
  | nil =>
    intro cur done sts h
    rw [stageLoop] at h
    injection h with h
    rw [← h]
    simp
  | cons command rest ih =>
    intro cur done sts h
    rw [stageLoop] at h
    by_cases hupd : cur.update.isSome <;>
      simp only [hupd, if_true, if_false, Bool.false_eq_true] at h
    · obtain ⟨u, hu⟩ := Option.isSome_iff_exists.1 hupd
      by_cases hdel : command.type = CommandType.DELETE
      · rw [if_pos hdel] at h
        rw [ih _ _ _ h, List.filter_cons_of_neg (by simp [hdel ▸ (by decide :
            CommandType.DELETE ≠ CommandType.UPDATE)])]
        simp [emptyStage, hu]
      · rw [if_neg hdel] at h
        by_cases hupd2 : command.type = CommandType.UPDATE
        · rw [if_pos hupd2] at h
          split at h <;>
          · rw [ih _ _ _ h, List.filter_cons_of_pos (by simp [hupd2])]
            simp [emptyStage, hu]
        · rw [if_neg hupd2] at h
          exact Except.noConfusion h
    · have hnone : cur.update = none := by
        cases hcu : cur.update
        · rfl
        · rw [hcu] at hupd; simp at hupd
      by_cases hdel : command.type = CommandType.DELETE
      · rw [if_pos hdel] at h
        rw [ih _ _ _ h, List.filter_cons_of_neg (by simp [hdel ▸ (by decide :
            CommandType.DELETE ≠ CommandType.UPDATE)])]
        simp [hnone]
      · rw [if_neg hdel] at h
        by_cases hupd2 : command.type = CommandType.UPDATE
        · rw [if_pos hupd2] at h
          split at h <;>
          · rw [ih _ _ _ h, List.filter_cons_of_pos (by simp [hupd2])]
            simp [emptyStage, hnone]
        · rw [if_neg hupd2] at h
          exact Except.noConfusion h

/-- The staging loop opens no new stage while only DELETE commands arrive and
the current stage has no update. -/
theorem stageLoop_all_deletes_length (commands : List MutationCommand) :
    ∀ cur done sts, (∀ c ∈ commands, c.type = CommandType.DELETE) →
      cur.update = none → stageLoop cur done commands = Except.ok sts →
      sts.length = done.length + 1 := by
  induction commands with
  | nil =>
    intro cur done sts _ _ h
    rw [stageLoop] at h
    injection h with h
    rw [← h]
    simp
  | cons command rest ih =>
    intro cur done sts hall hnone h
    rw [stageLoop] at h
    have hupd : cur.update.isSome = false := by simp [hnone]
    simp only [hupd, if_false, Bool.false_eq_true] at h
    rw [if_pos (hall command (List.mem_cons_self _ _))] at h
    exact ih { cur with deletes := cur.deletes ++ [command] } _ _
      (fun c hc => hall c (List.mem_cons_of_mem _ hc)) hnone h

/-- The staging loop fails, with `UNKNOWN_MUTATION_COMMAND`, exactly when
some command has an unsupported tag. -/
theorem stageLoop_error_iff (commands : List MutationCommand) :
    ∀ cur done, stageLoop cur done commands = Except.error Error.UNKNOWN_MUTATION_COMMAND ↔
      ∃ c ∈ commands, c.type = CommandType.EMPTY := by
  induction commands with
  | nil =>
    intro cur done
    rw [stageLoop]
    refine iff_of_false (by intro hh; cases hh) (by simp)
  | cons command rest ih =>
    intro cur done
    have hstep : ∀ c₂ d₂, (stageLoop c₂ d₂ rest = Except.error Error.UNKNOWN_MUTATION_COMMAND ↔
        ∃ c ∈ command :: rest, c.type = CommandType.EMPTY) ∨ True := fun _ _ => Or.inr trivial
    rw [stageLoop]
    by_cases hupd : cur.update.isSome <;>
      simp only [hupd, if_true, if_false, Bool.false_eq_true]
    all_goals (
      by_cases hdel : command.type = CommandType.DELETE
      · rw [if_pos hdel, ih]
        constructor
        · intro ⟨c, hc, he⟩
          exact ⟨c, List.mem_cons_of_mem _ hc, he⟩
        · intro ⟨c, hc, he⟩
          rcases List.mem_cons.1 hc with h1 | h1
          · rw [h1, hdel] at he; cases he
          · exact ⟨c, h1, he⟩
      · rw [if_neg hdel]
        by_cases hupd2 : command.type = CommandType.UPDATE
        · rw [if_pos hupd2]
          split <;>
          · rw [ih]
            constructor
            · intro ⟨c, hc, he⟩
              exact ⟨c, List.mem_cons_of_mem _ hc, he⟩
            · intro ⟨c, hc, he⟩
              rcases List.mem_cons.1 hc with h1 | h1
              · rw [h1, hupd2] at he; cases he
              · exact ⟨c, h1, he⟩
        · rw [if_neg hupd2]
          have hemp : command.type = CommandType.EMPTY := by
            cases hct : command.type
            · rfl
            · exact absurd hct hdel
            · exact absurd hct hupd2
          refine iff_of_true rfl ⟨command, List.mem_cons_self _ _, hemp⟩)

/-- The source's staging loop computes exactly the reference staging: the
accumulated earlier stages are prepended, and the stage-0 test
(`stages.size() == 1`) coincides with the reference's `isFirst` flag, which
tracks whether no earlier stage has been emitted. -/
theorem stageLoop_eq_specGo (commands : List MutationCommand) :
    ∀ cur done, stageLoop cur done commands =
      match specGo done.isEmpty cur commands with
      | Except.ok further => Except.ok (done ++ further)
      | Except.error e => Except.error e := by
  induction commands with
  | nil =>
    intro cur done
    rw [stageLoop, specGo]
  | cons c rest ih =>
    intro cur done
    rw [stageLoop, specGo]
    by_cases hupd : cur.update.isSome
    · simp only [hupd, if_true]
      by_cases hdel : c.type = CommandType.DELETE
      · rw [if_pos hdel, if_pos hdel, ih]
        have hX : ({ emptyStage with deletes := emptyStage.deletes ++ [c] } : Stage)
            = { emptyStage with deletes := [c] } := rfl
        rw [hX]
        have hne : (done ++ [cur]).isEmpty = false := by simp
        rw [hne]
        cases specGo false { emptyStage with deletes := [c] } rest with
        | ok fu => simp
        | error e => rfl
      · rw [if_neg hdel, if_neg hdel]
        by_cases hupd2 : c.type = CommandType.UPDATE
        · rw [if_pos hupd2, if_pos hupd2]
          have hne : (done ++ [cur]).isEmpty = false := by simp
          rw [if_neg (by rw [hne]; intro hh; cases hh), ih, hne,
            if_pos (show ((true : Bool) || done.isEmpty) = true by simp)]
          cases specGo false { emptyStage with update := some c } rest with
          | ok fu => simp
          | error e => rfl
        · rw [if_neg hupd2, if_neg hupd2]
    · simp only [hupd, if_false, Bool.false_eq_true]
      by_cases hdel : c.type = CommandType.DELETE
      · rw [if_pos hdel, if_pos hdel]
        exact ih _ done
      · rw [if_neg hdel, if_neg hdel]
        by_cases hupd2 : c.type = CommandType.UPDATE
        · rw [if_pos hupd2, if_pos hupd2]
          have hupdf : cur.update.isSome = false := by simpa using hupd
          by_cases hde : done.isEmpty
          · rw [List.isEmpty_iff] at hde
            subst hde
            rw [if_pos (show (([] : List Stage).isEmpty) = true from rfl), ih,
              if_pos (show ((false : Bool) || ([] : List Stage).isEmpty) = true by simp)]
            have hne1 : (([] : List Stage) ++ [cur]).isEmpty = false := by simp
            rw [hne1]
            cases specGo false { emptyStage with update := some c } rest with
            | ok fu => simp
            | error e => rfl
          · have hdef : done.isEmpty = false := by simpa using hde
            rw [if_neg (by rw [hdef]; intro hh; cases hh), ih, hdef, if_neg (by simp)]
        · rw [if_neg hupd2, if_neg hupd2]

/-- C2: staging processes commands in original order and is exactly the
reference staging written from the claim's words (`specStaging`): a new stage
is opened whenever the current stage already holds an Update, a Delete is
appended to the current stage's delete list, and an Update met at stage 0
first opens a new stage. Consequently stage 0 never holds an Update; every
stage holds at most one Update, each UPDATE landing in its own slot in
order; DELETEs are appended in order, so the concatenation of the stages'
delete lists is the DELETE-subsequence of the commands; a command with any
other tag makes staging (and `prepare`, when its earlier checks pass) fail
with `UNKNOWN_MUTATION_COMMAND`; and an all-DELETE command list yields
exactly one stage. -/
theorem staging_spec (commands : List MutationCommand) :
    stageCommands commands = specStaging commands ∧
    (∀ sts, stageCommands commands = Except.ok sts →
      (sts.headD emptyStage).update = none ∧
      (sts.map Stage.deletes).flatten =
        commands.filter (fun c => decide (c.type = CommandType.DELETE)) ∧
      sts.filterMap Stage.update =
        commands.filter (fun c => decide (c.type = CommandType.UPDATE)) ∧
      ((∀ c ∈ commands, c.type = CommandType.DELETE) → sts.length = 1)) ∧
    (stageCommands commands = Except.error Error.UNKNOWN_MUTATION_COMMAND ↔
      ∃ c ∈ commands, c.type = CommandType.EMPTY) ∧
    (∀ storage ctx dry_run, validateUpdateColumns storage commands = Except.ok () →
      commands ≠ [] → (∃ c ∈ commands, c.type = CommandType.EMPTY) →
      prepare storage ctx commands false dry_run
        = Except.error Error.UNKNOWN_MUTATION_COMMAND) := by
  refine ⟨?_, ?_, stageLoop_error_iff commands emptyStage [], ?_⟩
  · show stageLoop emptyStage [] commands = specStaging commands
    rw [stageLoop_eq_specGo commands emptyStage []]
    unfold specStaging
    simp only [List.isEmpty_nil]
    cases hs : specGo true emptyStage commands with
    | ok fu => simp
    | error e => rfl
  · intro sts h
    refine ⟨stageLoop_head_update commands emptyStage [] sts h rfl, ?_, ?_, ?_⟩
    · have hd := stageLoop_deletes commands emptyStage [] sts h
      simpa [emptyStage] using hd
    · have hu := stageLoop_updates commands emptyStage [] sts h
      simpa [emptyStage] using hu
    · intro hall
      simpa using stageLoop_all_deletes_length commands emptyStage [] sts hall rfl h
  · intro storage ctx dry_run hval hne hex
    have hstage : stageCommands commands = Except.error Error.UNKNOWN_MUTATION_COMMAND :=
      (stageLoop_error_iff commands emptyStage []).2 hex
    have hempty : commands.isEmpty = false := by
      cases commands with
      | nil => exact absurd rfl hne
      | cons a as => simp [List.isEmpty]
    simp [prepare, hempty, hval, hstage]

/-- Witness for the C2 theorem: two DELETEs stay in the lone stage 0; an
unsupported tag makes `prepare` fail with `UNKNOWN_MUTATION_COMMAND`; and for
an UPDATE followed by a DELETE the staging equals the reference staging, the
DELETE landing in a fresh third stage rather than in the update's own stage. -/
theorem staging_spec_witness :
    (stagedOf [exDeleteCommand, exDeleteCommand]).length = 1 ∧
    prepare exStorage {} [exDeleteCommand, exEmptyCommand] false false
      = Except.error Error.UNKNOWN_MUTATION_COMMAND ∧
    stageCommands [exUpdateCommand, exDeleteCommand]
      = specStaging [exUpdateCommand, exDeleteCommand] ∧
    stagedOf [exUpdateCommand, exDeleteCommand]
      = [emptyStage, { emptyStage with update := some exUpdateCommand },
         { emptyStage with deletes := [exDeleteCommand] }] :=
  ⟨((staging_spec [exDeleteCommand, exDeleteCommand]).2.1 _ rfl).2.2.2
      (by
        intro c hc
        rcases List.mem_cons.1 hc with h1 | h1
        · rw [h1]; rfl
        · rcases List.mem_cons.1 h1 with h2 | h2
          · rw [h2]; rfl
          · cases h2),
   (staging_spec [exDeleteCommand, exEmptyCommand]).2.2.2 exStorage {} false rfl
      (by simp) ⟨exEmptyCommand, by simp, rfl⟩,
   (staging_spec [exUpdateCommand, exDeleteCommand]).1,
   by decide⟩

/-- The forward pass never touches a stage's delete list. -/
theorem forwardStep_deletes_eq (cols : List Column) (p : Finset String) (st : Stage) :
    (forwardStep cols p st).deletes = st.deletes := by
  unfold forwardStep
  split <;> rfl

/-- The forward pass never touches a stage's update slot. -/
theorem forwardStep_update_eq (cols : List Column) (p : Finset String) (st : Stage) :
    (forwardStep cols p st).update = st.update := by
  unfold forwardStep
  split <;> rfl

/-- Output of a forward step for a stage with deletes: the full column set. -/
theorem forwardStep_output_of_deletes (cols : List Column) (p : Finset String) (st : Stage)
    (h : st.deletes ≠ []) :
    (forwardStep cols p st).output_columns = allColumnNames cols := by
  unfold forwardStep
  rw [if_neg (by simpa using h)]

/-- Output of a forward step for a stage without deletes: the previous set,
with the update targets unioned in while the set is still smaller than the
physical column list. -/
theorem forwardStep_output_of_no_deletes (cols : List Column) (p : Finset String) (st : Stage)
    (h : st.deletes = []) :
    (forwardStep cols p st).output_columns =
      match st.update with
      | none => p
      | some u => if p.card < cols.length then p ∪ updateTargets u else p := by
  unfold forwardStep
  rw [if_pos (by simpa using h)]
  cases st.update <;> rfl

/-- A forward step's output stays inside the physical column set. -/
theorem forwardStep_output_subset (cols : List Column) (p : Finset String) (st : Stage)
    (hp : p ⊆ allColumnNames cols)
    (hu : ∀ u, st.update = some u → updateTargets u ⊆ allColumnNames cols) :
    (forwardStep cols p st).output_columns ⊆ allColumnNames cols := by
  by_cases hdel : st.deletes = []
  · rw [forwardStep_output_of_no_deletes cols p st hdel]
    cases hupd : st.update with
    | none => exact hp
    | some u =>
      show (if p.card < cols.length then p ∪ updateTargets u else p) ⊆ allColumnNames cols
      by_cases hlt : p.card < cols.length
      · rw [if_pos hlt]
        exact Finset.union_subset hp (hu u hupd)
      · rw [if_neg hlt]
        exact hp
  · rw [forwardStep_output_of_deletes cols p st hdel]

/-- A forward step's output contains the previous stage's output set. -/
theorem forwardStep_output_mono (cols : List Column) (p : Finset String) (st : Stage)
    (hp : p ⊆ allColumnNames cols) :
    p ⊆ (forwardStep cols p st).output_columns := by
  by_cases hdel : st.deletes = []
  · rw [forwardStep_output_of_no_deletes cols p st hdel]
    cases hupd : st.update with
    | none => exact Finset.Subset.refl p
    | some u =>
      show p ⊆ (if p.card < cols.length then p ∪ updateTargets u else p)
      by_cases hlt : p.card < cols.length
      · rw [if_pos hlt]
        exact Finset.subset_union_left
      · rw [if_neg hlt]
  · rw [forwardStep_output_of_deletes cols p st hdel]
    exact hp

/-- The forward pass preserves the number of stages. -/
theorem forwardPass_length (cols : List Column) :
    ∀ (sts : List Stage) (p : Finset String), (forwardPass cols sts p).length = sts.length := by
  intro sts
  induction sts with
  | nil => intro p; rfl
  | cons st rest ih => intro p; simp [forwardPass, ih]

/-- Every output set of the forward pass stays inside the physical columns. -/
theorem forwardPass_output_subset (cols : List Column) :
    ∀ (sts : List Stage) (p : Finset String), p ⊆ allColumnNames cols →
      (∀ st ∈ sts, ∀ u, st.update = some u → updateTargets u ⊆ allColumnNames cols) →
      ∀ i, i < sts.length →
      ((forwardPass cols sts p).getD i emptyStage).output_columns ⊆ allColumnNames cols := by
  intro sts
  induction sts with
  | nil =>
    intro p hp hu i hi
    simp at hi
  | cons st rest ih =>
    intro p hp hu i hi
    cases i with
    | zero =>
      exact forwardStep_output_subset cols p st hp (hu st (List.mem_cons_self _ _))
    | succ k =>
      exact ih (forwardStep cols p st).output_columns
        (forwardStep_output_subset cols p st hp (hu st (List.mem_cons_self _ _)))
        (fun s hs => hu s (List.mem_cons_of_mem _ hs)) k
        (Nat.succ_lt_succ_iff.1 (by simpa using hi))

/-- Size comparison against the column list is, for a subset of the physical
names, the same as being a proper subset of the full name set. -/
theorem card_lt_iff_ne_full (cols : List Column) (hnd : (cols.map Column.name).Nodup)
    (p : Finset String) (hp : p ⊆ allColumnNames cols) :
    p.card < cols.length ↔ p ≠ allColumnNames cols := by
  have hcard : (allColumnNames cols).card = cols.length := by
    rw [allColumnNames, List.toFinset_card_of_nodup hnd, List.length_map]
  constructor
  · intro hlt he
    rw [he, hcard] at hlt
    exact lt_irrefl _ hlt
  · intro hne
    rcases lt_or_eq_of_le (Finset.card_le_card hp) with hlt | heq
    · rw [hcard] at hlt
      exact hlt
    · exact absurd (Finset.eq_of_subset_of_card_le hp (le_of_eq heq.symm)) hne

/-- Every update sitting in a staged stage passed column validation: its
target set lies inside the physical column names. -/
theorem staged_update_targets (storage : Storage) (commands : List MutationCommand)
    (sts : List Stage) (hstage : stageCommands commands = Except.ok sts)
    (hval : validateUpdateColumns storage commands = Except.ok ()) :
    ∀ st ∈ sts, ∀ u, st.update = some u →
      updateTargets u ⊆ allColumnNames storage.getAllPhysical := by
  intro st hst u hu
  have hmemu : u ∈ commands.filter (fun c => decide (c.type = CommandType.UPDATE)) := by
    have heq := stageLoop_updates commands emptyStage [] sts hstage
    have hin : u ∈ sts.filterMap Stage.update := List.mem_filterMap.2 ⟨st, hst, hu⟩
    rw [heq] at hin
    simpa [emptyStage] using hin
  have hu_mem : u ∈ commands := (List.mem_filter.1 hmemu).1
  have hu_type : u.type = CommandType.UPDATE := by
    have := (List.mem_filter.1 hmemu).2
    simpa using this
  have hord := (validateUpdateColumns_ok_iff storage commands).1 hval u hu_mem hu_type
  intro x hx
  have hx2 : x ∈ u.column_to_update_expression.map Prod.fst := by
    simpa [updateTargets] using hx
  rcases List.mem_map.1 hx2 with ⟨kv, hkv, hfst⟩
  have hkord := hord kv hkv
  rw [allColumnNames]
  rw [List.mem_toFinset, Storage.getAllPhysical, List.map_append]
  rw [← hfst]
  exact List.mem_append_left _ hkord

/-- Elementwise characterization of the forward output-column pass, for an
arbitrary starting set that lies inside the physical columns. -/
theorem forwardPass_getD_spec (cols : List Column)
    (hnd : (cols.map Column.name).Nodup) :
    ∀ (sts : List Stage) (p : Finset String), p ⊆ allColumnNames cols →
      (∀ st ∈ sts, ∀ u, st.update = some u → updateTargets u ⊆ allColumnNames cols) →
      ∀ i, i < sts.length →
      ((forwardPass cols sts p).getD i emptyStage).output_columns =
        (if (sts.getD i emptyStage).deletes ≠ [] then allColumnNames cols
         else
           match (sts.getD i emptyStage).update with
           | none =>
               if i = 0 then p
               else ((forwardPass cols sts p).getD (i-1) emptyStage).output_columns
           | some u =>
               if (if i = 0 then p
                   else ((forwardPass cols sts p).getD (i-1) emptyStage).output_columns)
                   ≠ allColumnNames cols then
                 (if i = 0 then p
                  else ((forwardPass cols sts p).getD (i-1) emptyStage).output_columns)
                 ∪ updateTargets u
               else
                 (if i = 0 then p
                  else ((forwardPass cols sts p).getD (i-1) emptyStage).output_columns)) := by
  intro sts
  induction sts with
  | nil =>
    intro p hp hu i hi
    simp at hi
  | cons st rest ih =>
    intro p hp hu i hi
    cases i with
    | zero =>
      show (forwardStep cols p st).output_columns = _
      by_cases hdel : st.deletes = []
      · rw [if_neg (by simp [show (st :: rest).getD 0 emptyStage = st from rfl, hdel])]
        rw [forwardStep_output_of_no_deletes cols p st hdel]
        show _ = (match st.update with
          | none => _
          | some u => _)
        cases hupd : st.update with
        | none => simp
        | some u =>
          by_cases hfull : p = allColumnNames cols
          · have hnlt : ¬ p.card < cols.length := by
              rw [card_lt_iff_ne_full cols hnd p hp]
              simpa using hfull
            subst hfull
            simp [hnlt]
          · have hlt : p.card < cols.length := (card_lt_iff_ne_full cols hnd p hp).2 hfull
            simp [hlt, hfull]
      · rw [if_pos (by simp [show (st :: rest).getD 0 emptyStage = st from rfl, hdel])]
        exact forwardStep_output_of_deletes cols p st hdel
    | succ k =>
      have hk : k < rest.length := Nat.succ_lt_succ_iff.1 (by simpa using hi)
      have hq : (forwardStep cols p st).output_columns ⊆ allColumnNames cols :=
        forwardStep_output_subset cols p st hp (hu st (List.mem_cons_self _ _))
      have IH := ih (forwardStep cols p st).output_columns hq
        (fun s hs => hu s (List.mem_cons_of_mem _ hs)) k hk
      cases k with
      | zero => simpa [forwardPass] using IH
      | succ j => simpa [forwardPass] using IH

/-- C3: the forward pass computes each stage's output set in stage order: a
stage with at least one delete gets the full physical column set regardless
of its predecessor; otherwise the set is a copy of the previous stage's set
(empty for stage 0), with the update's target column names unioned in when
the stage holds an update and the set is not already the full physical set. -/
theorem forward_pass_spec (storage : Storage) (commands : List MutationCommand)
    (sts : List Stage)
    (hnd : (storage.getAllPhysical.map Column.name).Nodup)
    (hstage : stageCommands commands = Except.ok sts)
    (hval : validateUpdateColumns storage commands = Except.ok ())
    (i : Nat) (hi : i < sts.length) :
    ((forwardPass storage.getAllPhysical sts ∅).getD i emptyStage).output_columns =
      (if (sts.getD i emptyStage).deletes ≠ [] then allColumnNames storage.getAllPhysical
       else
         match (sts.getD i emptyStage).update with
         | none =>
             if i = 0 then (∅ : Finset String)
             else ((forwardPass storage.getAllPhysical sts ∅).getD (i-1)
                 emptyStage).output_columns
         | some u =>
             if (if i = 0 then (∅ : Finset String)
                 else ((forwardPass storage.getAllPhysical sts ∅).getD (i-1)
                     emptyStage).output_columns)
                 ≠ allColumnNames storage.getAllPhysical then
               (if i = 0 then (∅ : Finset String)
                else ((forwardPass storage.getAllPhysical sts ∅).getD (i-1)
                    emptyStage).output_columns)
               ∪ updateTargets u
             else
               (if i = 0 then (∅ : Finset String)
                else ((forwardPass storage.getAllPhysical sts ∅).getD (i-1)
                    emptyStage).output_columns)) :=
  forwardPass_getD_spec storage.getAllPhysical hnd sts ∅ (Finset.empty_subset _)
    (staged_update_targets storage commands sts hstage hval) i hi

/-- Witness for the C3 theorem at the single-update example, stage 1. -/
theorem forward_pass_spec_witness :
    ((forwardPass exStorage.getAllPhysical (stagedOf [exUpdateCommand]) ∅).getD 1
        emptyStage).output_columns =
      (if ((stagedOf [exUpdateCommand]).getD 1 emptyStage).deletes ≠ [] then
         allColumnNames exStorage.getAllPhysical
       else
         match ((stagedOf [exUpdateCommand]).getD 1 emptyStage).update with
         | none =>
             if 1 = 0 then (∅ : Finset String)
             else ((forwardPass exStorage.getAllPhysical (stagedOf [exUpdateCommand]) ∅).getD
                 (1-1) emptyStage).output_columns
         | some u =>
             if (if 1 = 0 then (∅ : Finset String)
                 else ((forwardPass exStorage.getAllPhysical (stagedOf [exUpdateCommand]) ∅).getD
                     (1-1) emptyStage).output_columns)
                 ≠ allColumnNames exStorage.getAllPhysical then
               (if 1 = 0 then (∅ : Finset String)
                else ((forwardPass exStorage.getAllPhysical (stagedOf [exUpdateCommand]) ∅).getD
                    (1-1) emptyStage).output_columns)
               ∪ updateTargets u
             else
               (if 1 = 0 then (∅ : Finset String)
                else ((forwardPass exStorage.getAllPhysical (stagedOf [exUpdateCommand]) ∅).getD
                    (1-1) emptyStage).output_columns)) :=
  forward_pass_spec exStorage [exUpdateCommand] (stagedOf [exUpdateCommand]) (by decide)
    rfl rfl 1 (by decide)

/-- Monotonicity of the forward pass alone: each stage's output set contains
its predecessor's, for any valid starting set. -/
theorem forwardPass_output_mono (cols : List Column) :
    ∀ (sts : List Stage) (p : Finset String), p ⊆ allColumnNames cols →
      (∀ st ∈ sts, ∀ u, st.update = some u → updateTargets u ⊆ allColumnNames cols) →
      ∀ i, i + 1 < sts.length →
      ((forwardPass cols sts p).getD i emptyStage).output_columns ⊆
        ((forwardPass cols sts p).getD (i+1) emptyStage).output_columns := by
  intro sts
  induction sts with
  | nil =>
    intro p hp hu i hi
    simp at hi
  | cons st rest ih =>
    intro p hp hu i hi
    have hq : (forwardStep cols p st).output_columns ⊆ allColumnNames cols :=
      forwardStep_output_subset cols p st hp (hu st (List.mem_cons_self _ _))
    cases i with
    | zero =>
      cases rest with
      | nil => simp at hi
      | cons r rr =>
        exact forwardStep_output_mono cols (forwardStep cols p st).output_columns r hq
    | succ k =>
      exact ih (forwardStep cols p st).output_columns hq
        (fun s hs => hu s (List.mem_cons_of_mem _ hs)) k
        (Nat.succ_lt_succ_iff.1 (by simpa using hi))

/-- C5 (counterexample): after the full `prepare` (forward and backward
passes) the claimed superset relation between consecutive stages' output sets
fails: for `UPDATE a = a+1 WHERE b > 0` over columns `a, b`, the backward pass
adds the predicate column `b` to stage 0's output set while stage 1's output
set stays `a` only, so `output_columns[1]` is not a superset of
`output_columns[0]`. -/
theorem output_monotone_counterexample :
    prepare exStorage {} [exUpdateCommand] false false
      = Except.ok (preparedOf exStorage [exUpdateCommand]) ∧
    (preparedOf exStorage [exUpdateCommand]).stages.length = 2 ∧
    ¬ (((preparedOf exStorage [exUpdateCommand]).stages.getD 0 emptyStage).output_columns ⊆
        ((preparedOf exStorage [exUpdateCommand]).stages.getD 1 emptyStage).output_columns) :=
  ⟨rfl, by decide, by decide⟩

/-- C5 (amended): after the forward output-set pass, and before the backward
required-input propagation, every stage's output-column set is a superset of
its predecessor's. -/
theorem forward_output_monotone (storage : Storage) (commands : List MutationCommand)
    (sts : List Stage)
    (hstage : stageCommands commands = Except.ok sts)
    (hval : validateUpdateColumns storage commands = Except.ok ())
    (i : Nat) (hi : i + 1 < sts.length) :
    ((forwardPass storage.getAllPhysical sts ∅).getD i emptyStage).output_columns ⊆
      ((forwardPass storage.getAllPhysical sts ∅).getD (i+1) emptyStage).output_columns :=
  forwardPass_output_mono storage.getAllPhysical sts ∅ (Finset.empty_subset _)
    (staged_update_targets storage commands sts hstage hval) i hi

/-- Witness for the amended C5 theorem at the single-update example. -/
theorem forward_output_monotone_witness :
    ((forwardPass exStorage.getAllPhysical (stagedOf [exUpdateCommand]) ∅).getD 0
        emptyStage).output_columns ⊆
      ((forwardPass exStorage.getAllPhysical (stagedOf [exUpdateCommand]) ∅).getD 1
          emptyStage).output_columns :=
  forward_output_monotone exStorage [exUpdateCommand] (stagedOf [exUpdateCommand])
    rfl rfl 0 (by decide)

/-- The last element of a nonempty list does not depend on the default. -/
theorem getLastD_default_irrel {α : Type} (l : List α) (hne : l ≠ []) (d₁ d₂ : α) :
    l.getLastD d₁ = l.getLastD d₂ := by
  rw [List.getLastD_eq_getLast?, List.getLastD_eq_getLast?]
  obtain ⟨x, hx⟩ := Option.isSome_iff_exists.1 (List.getLast?_isSome.2 hne)
  rw [hx]
  rfl

/-- Dropping the head of a list with at least two elements keeps the last. -/
theorem getLastD_cons_of_ne_nil {α : Type} (a : α) (l : List α) (hne : l ≠ []) (d : α) :
    (a :: l).getLastD d = l.getLastD d := by
  rw [List.getLastD_cons]
  exact getLastD_default_irrel l hne a d

/-- Indexing a reversed list. -/
theorem getD_reverse {α : Type} (l : List α) (i : Nat) (h : i < l.length) (d : α) :
    l.reverse.getD i d = l.getD (l.length - 1 - i) d := by
  rw [List.getD_eq_getElem?_getD, List.getD_eq_getElem?_getD, List.getElem?_reverse h]

/-- Length of the backward sweep. -/
theorem backwardGo_length (storage : Storage) :
    ∀ (rest : List Stage) (st : Stage),
      (backwardGo storage st rest).length = rest.length + 1 := by
  intro rest
  induction rest with
  | nil => intro st; rfl
  | cons prev rr ih => intro st; simp [backwardGo, ih]

/-- The first element of the backward sweep keeps the current stage's output
set (chain building never touches it). -/
theorem backwardGo_getD_zero_output (storage : Storage) (rest : List Stage) (st : Stage) :
    ((backwardGo storage st rest).getD 0 emptyStage).output_columns = st.output_columns := by
  cases rest <;> rfl

/-- Every element of the backward sweep is either chain-built or keeps the
update slot of the input's last stage (stage 0). -/
theorem backwardGo_mem (storage : Storage) :
    ∀ (rest : List Stage) (st x : Stage), x ∈ backwardGo storage st rest →
      (∃ y, x = buildStageChain storage y) ∨
        x.update = ((st :: rest).getLastD emptyStage).update := by
  intro rest
  induction rest with
  | nil =>
    intro st x hx
    rw [backwardGo] at hx
    right
    rw [List.mem_singleton.1 hx]
    rfl
  | cons prev rr ih =>
    intro st x hx
    rw [backwardGo] at hx
    rcases List.mem_cons.1 hx with h1 | h1
    · exact Or.inl ⟨st, h1⟩
    · rcases ih _ x h1 with hL | hR
      · exact Or.inl hL
      · right
        cases rr with
        | nil => exact hR
        | cons z zs =>
          rw [List.getLastD_cons, List.getLastD_cons] at hR
          rw [List.getLastD_cons, List.getLastD_cons, List.getLastD_cons]
          exact hR

/-- Adjacent elements of the backward sweep: the columns the chain of one
stage requires as input were unioned into the next (earlier) stage's output
set. -/
theorem backwardGo_adjacent (storage : Storage) :
    ∀ (rest : List Stage) (st : Stage) (j : Nat), j + 1 < rest.length + 1 →
      chainFirstStepRequired storage ((backwardGo storage st rest).getD j emptyStage) ⊆
        ((backwardGo storage st rest).getD (j+1) emptyStage).output_columns := by
  intro rest
  induction rest with
  | nil =>
    intro st j hj
    simp at hj
  | cons prev rr ih =>
    intro st j hj
    cases j with
    | zero =>
      show chainFirstStepRequired storage (buildStageChain storage st) ⊆
        ((backwardGo storage
            { prev with
              output_columns :=
                prev.output_columns ∪
                  chainFirstStepRequired storage (buildStageChain storage st) }
            rr).getD 0 emptyStage).output_columns
      rw [backwardGo_getD_zero_output]
      exact Finset.subset_union_right
    | succ k =>
      exact ih
        { prev with
          output_columns :=
            prev.output_columns ∪
              chainFirstStepRequired storage (buildStageChain storage st) }
        k (by simpa using hj)

/-- Every element of the backward sweep except the last (stage 0) carries a
built chain. -/
theorem backwardGo_dropLast_built (storage : Storage) :
    ∀ (rest : List Stage) (st : Stage), ∀ x ∈ (backwardGo storage st rest).dropLast,
      ∃ y, x = buildStageChain storage y := by
  intro rest
  induction rest with
  | nil =>
    intro st x hx
    rw [backwardGo] at hx
    cases hx
  | cons prev rr ih =>
    intro st x hx
    rw [backwardGo] at hx
    have hne : backwardGo storage
        { prev with
          output_columns :=
            prev.output_columns ∪
              chainFirstStepRequired storage (buildStageChain storage st) } rr ≠ [] := by
      intro hnil
      have := backwardGo_length storage rr
        { prev with
          output_columns :=
            prev.output_columns ∪
              chainFirstStepRequired storage (buildStageChain storage st) }
      rw [hnil] at this
      simp at this
    rw [List.dropLast_cons_of_ne_nil hne] at hx
    rcases List.mem_cons.1 hx with h1 | h1
    · exact ⟨st, h1⟩
    · exact ih _ x h1

/-- Elimination of a successful `prepare`: the earlier checks passed and the
result is the backward pass over the forward pass over the staged commands,
with the select built from the final stage 0. -/
theorem prepare_ok_elim (storage : Storage) (ctx : Context) (commands : List MutationCommand)
    (dry_run : Bool) (p : PrepareResult)
    (hp : prepare storage ctx commands false dry_run = Except.ok p) :
    validateUpdateColumns storage commands = Except.ok () ∧ commands ≠ [] ∧
      ∃ staged, stageCommands commands = Except.ok staged ∧
        p.stages = backwardPass storage (forwardPass storage.getAllPhysical staged ∅) ∧
        p.select = firstStageSelect (p.stages.headD emptyStage) := by
  unfold prepare at hp
  rw [if_neg (by simp)] at hp
  by_cases hemp : commands.isEmpty
  · rw [if_pos hemp] at hp
    exact Except.noConfusion hp
  · rw [if_neg hemp] at hp
    cases hval : validateUpdateColumns storage commands with
    | error e =>
      rw [hval] at hp
      exact Except.noConfusion hp
    | ok u =>
      cases u
      rw [hval] at hp
      cases hstg : stageCommands commands with
      | error e =>
        rw [hstg] at hp
        exact Except.noConfusion hp
      | ok staged =>
        rw [hstg] at hp
        injection hp with hp
        refine ⟨rfl, by simpa using hemp, staged, rfl, ?_, ?_⟩
        · rw [← hp]
        · rw [← hp]

/-- The first stage of the forward pass over staged commands has no update. -/
theorem prepared_head_update_none (storage : Storage) (commands : List MutationCommand)
    (staged : List Stage) (hstg : stageCommands commands = Except.ok staged) :
    (((forwardPass storage.getAllPhysical staged ∅).head?).getD emptyStage).update = none := by
  have hs0 := stageLoop_head_update commands emptyStage [] staged hstg rfl
  cases staged with
  | nil => rfl
  | cons s0 srest =>
    show (forwardStep _ ∅ s0).update = none
    rw [forwardStep_update_eq]
    simpa using hs0

/-- C1: for every stage holding an update, the synthesized per-column
expression built during `prepare` is exactly
`CAST(if(predicate, replacement, column), declared-type-name)`, and any such
expression evaluates, on a row where the predicate is zero, to the cast of
the column's current value to the declared type. -/
theorem update_expression_synthesis (storage : Storage) (ctx : Context)
    (commands : List MutationCommand) (dry_run : Bool) (p : PrepareResult)
    (hp : prepare storage ctx commands false dry_run = Except.ok p) :
    (∀ st ∈ p.stages, ∀ u, st.update = some u → ∀ pred, u.predicate = some pred →
      st.column_to_updated = u.column_to_update_expression.map (fun kv =>
        (kv.1, AST.func "CAST"
          [AST.func "if" [pred, kv.2, AST.identifier kv.1],
           AST.literal (storage.getColumnTypeName kv.1)]))) ∧
    (∀ sem castTo litVal row pred texpr col ty,
      evalExpr sem castTo litVal row pred = 0 →
      evalExpr sem castTo litVal row
        (AST.func "CAST" [AST.func "if" [pred, texpr, AST.identifier col], AST.literal ty])
        = castTo ty (row col)) := by
  obtain ⟨hval, hne, staged, hstg, hstages, hsel⟩ :=
    prepare_ok_elim storage ctx commands dry_run p hp
  constructor
  · intro st hst u hu pred hpred
    rw [hstages, backwardPass, List.mem_reverse] at hst
    cases hrev : (forwardPass storage.getAllPhysical staged ∅).reverse with
    | nil =>
      rw [hrev] at hst
      cases hst
    | cons a rest =>
      rw [hrev] at hst
      rcases backwardGo_mem storage rest a st hst with ⟨y, hy⟩ | hlast
      · subst hy
        have hyu : y.update = some u := hu
        show columnToUpdated storage y = _
        simp [columnToUpdated, hyu, updatedColumn, makeASTFunction, hpred]
      · exfalso
        have hgl : ((a :: rest).getLastD emptyStage).update = none := by
          rw [← hrev, List.getLastD_eq_getLast?, List.getLast?_reverse]
          exact prepared_head_update_none storage commands staged hstg
        rw [hgl] at hlast
        rw [hlast] at hu
        exact Option.noConfusion hu
  · intro sem castTo litVal row pred texpr col ty h
    simp [evalExpr, h]

/-- Witness for the C1 theorem: the single-update example's stage 1 carries
exactly the synthesized CAST/if expression for column `a`. -/
theorem update_expression_synthesis_witness :
    ((preparedOf exStorage [exUpdateCommand]).stages.getD 1 emptyStage).column_to_updated =
      exUpdateCommand.column_to_update_expression.map (fun kv =>
        (kv.1, AST.func "CAST"
          [AST.func "if" [AST.func "greater" [AST.identifier "b", AST.literal "0"], kv.2,
             AST.identifier kv.1],
           AST.literal (exStorage.getColumnTypeName kv.1)])) := by
  have h1 : 1 < (preparedOf exStorage [exUpdateCommand]).stages.length := by decide
  exact (update_expression_synthesis exStorage {} [exUpdateCommand] false
      (preparedOf exStorage [exUpdateCommand]) rfl).1
    _ (by rw [List.getD_eq_getElem _ _ h1]; exact List.getElem_mem h1)
    exUpdateCommand (by decide) _ rfl

/-- C4: after `prepare`, for every stage i of at least 1, the previous stage's
output set contains every column the first step of stage i's finalized chain
requires as input (the backward pass unioned those columns in, and no later
iteration removes them). -/
theorem backward_required_subset (storage : Storage) (ctx : Context)
    (commands : List MutationCommand) (dry_run : Bool) (p : PrepareResult)
    (hp : prepare storage ctx commands false dry_run = Except.ok p)
    (i : Nat) (h1 : 1 ≤ i) (hi : i < p.stages.length) :
    chainFirstStepRequired storage (p.stages.getD i emptyStage) ⊆
      (p.stages.getD (i - 1) emptyStage).output_columns := by
  obtain ⟨hval, hne, staged, hstg, hstages, hsel⟩ :=
    prepare_ok_elim storage ctx commands dry_run p hp
  rw [hstages, backwardPass] at hi ⊢
  cases hrev : (forwardPass storage.getAllPhysical staged ∅).reverse with
  | nil =>
    rw [hrev] at hi
    simp [backwardGoRev] at hi
  | cons a rest =>
    rw [hrev] at hi
    show chainFirstStepRequired storage
        ((backwardGo storage a rest).reverse.getD i emptyStage) ⊆
      ((backwardGo storage a rest).reverse.getD (i - 1) emptyStage).output_columns
    have hlen : (backwardGo storage a rest).length = rest.length + 1 :=
      backwardGo_length storage rest a
    rw [List.length_reverse] at hi
    have hi2 : i < rest.length + 1 := by
      have h' : (backwardGoRev storage (a :: rest)).length = rest.length + 1 := hlen
      omega
    rw [getD_reverse _ i (by omega) _, getD_reverse _ (i-1) (by omega) _]
    have hj : (backwardGo storage a rest).length - 1 - (i - 1)
        = ((backwardGo storage a rest).length - 1 - i) + 1 := by omega
    rw [hj]
    exact backwardGo_adjacent storage rest a _ (by omega)

/-- Witness for the C4 theorem at the single-update example, stage 1. -/
theorem backward_required_subset_witness :
    chainFirstStepRequired exStorage
        ((preparedOf exStorage [exUpdateCommand]).stages.getD 1 emptyStage) ⊆
      ((preparedOf exStorage [exUpdateCommand]).stages.getD (1 - 1)
          emptyStage).output_columns :=
  backward_required_subset exStorage {} [exUpdateCommand] false
    (preparedOf exStorage [exUpdateCommand]) rfl 1 (by decide) (by decide)

/-- Membership in the canonical enumeration of a name set. -/
theorem mem_sortedNames (s : Finset String) (a : String) :
    a ∈ sortedNames s ↔ a ∈ s := by
  rcases s with ⟨val, hnd⟩
  revert hnd
  refine Quotient.inductionOn val ?_
  intro l hnd
  show a ∈ List.insertionSort (fun a b => a ≤ b) l ↔ _
  rw [(List.perm_insertionSort (fun a b => a ≤ b) l).mem_iff]
  exact Iff.rfl

/-- The canonical enumeration of a name set enumerates exactly the set. -/
theorem toFinset_sortedNames (s : Finset String) : (sortedNames s).toFinset = s := by
  ext a
  rw [List.mem_toFinset]
  exact mem_sortedNames s a

/-- The projection of the stage-0 read query is exactly stage 0's output set. -/
theorem selectHeader_firstStageSelect (st0 : Stage) :
    selectHeader (firstStageSelect st0) = st0.output_columns := by
  unfold selectHeader firstStageSelect
  rw [List.map_map]
  have hid : (AST.getColumnName ∘ AST.identifier) = id := by
    funext n
    simp [AST.getColumnName]
  rw [hid, List.map_id]
  exact toFinset_sortedNames st0.output_columns

/-- The chain-step fold counts steps in its second component. -/
theorem stepHeaderFold_counter (fn : List String) :
    ∀ (steps : List ExpressionStep) (acc : Finset String × Nat),
      (steps.foldl (stepHeaderFold fn) acc).2 = acc.2 + steps.length := by
  intro steps
  induction steps with
  | nil => intro acc; simp
  | cons s ss ih =>
    intro acc
    rw [List.foldl_cons, ih]
    have hstep : (stepHeaderFold fn acc s).2 = acc.2 + 1 := by
      rcases acc with ⟨h, i⟩
      simp only [stepHeaderFold]
      split <;> rfl
    rw [hstep]
    simp only [List.length_cons]
    omega

/-- A built chain always ends in the pruning step, so the stream's column set
after the stage is exactly the stage's output set, whatever came in. -/
theorem stageHeader_built (storage : Storage) (h : Finset String) (st0 : Stage) :
    stageHeader h (buildStageChain storage st0) = st0.output_columns := by
  have hfn : (buildStageChain storage st0).delete_filter_column_names.length
      = (filterSteps st0).length := by
    simp [buildStageChain, filterSteps, stageFilterAsts]
  unfold stageHeader
  have hchain : (buildStageChain storage st0).expressions_chain
      = (filterSteps st0 ++ updateSteps storage st0) ++ [pruneStep st0] := by
    show filterSteps st0 ++ updateSteps storage st0 ++ [pruneStep st0] = _
    rw [List.append_assoc]
  rw [hchain, List.foldl_append]
  rcases hacc : List.foldl
      (stepHeaderFold (buildStageChain storage st0).delete_filter_column_names)
      (h, 0) (filterSteps st0 ++ updateSteps storage st0) with ⟨h2, n2⟩
  have hn2 : n2 = (filterSteps st0 ++ updateSteps storage st0).length := by
    have hcnt := stepHeaderFold_counter
      (buildStageChain storage st0).delete_filter_column_names
      (filterSteps st0 ++ updateSteps storage st0) (h, 0)
    rw [hacc] at hcnt
    simpa using hcnt
  have hge : ¬ n2 < (buildStageChain storage st0).delete_filter_column_names.length := by
    rw [hn2, hfn, List.length_append]
    omega
  simp only [List.foldl_cons, List.foldl_nil]
  show (stepHeaderFold _ (h2, n2) (pruneStep st0)).1 = _
  simp only [stepHeaderFold]
  rw [if_neg hge]
  show ((pruneStep st0).required_output).toFinset = _
  exact toFinset_sortedNames st0.output_columns

/-- Folding the stage-header map over chain-built stages lands on the last
stage's output set. -/
theorem foldl_stageHeader_built (storage : Storage) :
    ∀ (l : List Stage) (h : Finset String),
      (∀ x ∈ l, ∃ y, x = buildStageChain storage y) → l ≠ [] →
      l.foldl stageHeader h = (l.getLastD emptyStage).output_columns := by
  intro l
  induction l with
  | nil =>
    intro h _ hne
    exact absurd rfl hne
  | cons x xs ih =>
    intro h hall hne
    rw [List.foldl_cons]
    rcases hall x (List.mem_cons_self _ _) with ⟨y, hy⟩
    cases xs with
    | nil =>
      subst hy
      show stageHeader h (buildStageChain storage y)
          = ((buildStageChain storage y :: []).getLastD emptyStage).output_columns
      rw [stageHeader_built]
      rfl
    | cons z zs =>
      rw [ih _ (fun w hw => hall w (List.mem_cons_of_mem _ hw)) (by simp)]
      rw [getLastD_cons_of_ne_nil x (z :: zs) (by simp) emptyStage]

/-- C6: the stage-0 read query projects exactly the columns of
`output_columns[0]` (as bare identifiers); its WHERE clause is absent without
deletes, the negated predicate for a single delete, and the AND-combination
of the negated predicates, in stage order, for two or more. -/
theorem first_stage_select_spec (storage : Storage) (ctx : Context)
    (commands : List MutationCommand) (dry_run : Bool) (p : PrepareResult)
    (hp : prepare storage ctx commands false dry_run = Except.ok p) :
    (p.select.select_expression_list.map AST.getColumnName).toFinset
        = (p.stages.headD emptyStage).output_columns ∧
    (∀ a ∈ p.select.select_expression_list, ∃ n, a = AST.identifier n) ∧
    ((p.stages.headD emptyStage).deletes = [] → p.select.where_expression = none) ∧
    (∀ d pd, (p.stages.headD emptyStage).deletes = [d] → d.predicate = some pd →
      p.select.where_expression = some (AST.func "not" [pd])) ∧
    (2 ≤ (p.stages.headD emptyStage).deletes.length →
      p.select.where_expression =
        some (AST.func "and"
          ((p.stages.headD emptyStage).deletes.map negatedPredicate))) := by
  obtain ⟨hval, hne, staged, hstg, hstages, hsel⟩ :=
    prepare_ok_elim storage ctx commands dry_run p hp
  rw [hsel]
  refine ⟨selectHeader_firstStageSelect _, ?_, ?_, ?_, ?_⟩
  · intro a ha
    rcases List.mem_map.1 ha with ⟨n, _, hn⟩
    exact ⟨n, hn.symm⟩
  · intro hdel
    show firstStageWhere (p.stages.headD emptyStage).deletes = none
    rw [hdel]
    rfl
  · intro d pd hdel hpd
    show firstStageWhere (p.stages.headD emptyStage).deletes = _
    rw [hdel]
    show some (negatedPredicate d) = _
    simp [negatedPredicate, makeASTFunction, hpd]
  · intro hlen
    show firstStageWhere (p.stages.headD emptyStage).deletes = _
    cases hdel : (p.stages.headD emptyStage).deletes with
    | nil =>
      rw [hdel] at hlen
      simp at hlen
    | cons d1 tail =>
      cases tail with
      | nil =>
        rw [hdel] at hlen
        simp at hlen
      | cons d2 ds => rfl

/-- Witness for the C6 theorem: a single DELETE gives the read filter
`NOT(less(a, 0))`. -/
theorem first_stage_select_spec_witness :
    (preparedOf exStorage [exDeleteCommand]).select.where_expression
      = some (AST.func "not" [AST.func "less" [AST.identifier "a", AST.literal "0"]]) :=
  (first_stage_select_spec exStorage {} [exDeleteCommand] false
      (preparedOf exStorage [exDeleteCommand]) rfl).2.2.2.1
    exDeleteCommand _ (by decide) rfl

/-- C8: the column set of the stream produced by `execute` (and the header
inspected by `validate`) is exactly the last stage's output set; every later
stage's chain ends in a prune to that stage's output set; and a synthesized
delete-filter column absent from the last output set never reaches the
result. -/
theorem final_stream_columns (storage : Storage) (ctx : Context)
    (commands : List MutationCommand) (p : PrepareResult)
    (hp : prepare storage ctx commands false false = Except.ok p) :
    executeHeader storage ctx commands false
        = Except.ok ((p.stages.getLastD emptyStage).output_columns) ∧
    validateHeader storage ctx commands false
        = Except.ok ((p.stages.getLastD emptyStage).output_columns) ∧
    (∀ st ∈ p.stages.drop 1,
      ((st.expressions_chain.getLastD {}).required_output).toFinset = st.output_columns) ∧
    (∀ st ∈ p.stages, ∀ name ∈ st.delete_filter_column_names,
      name ∉ (p.stages.getLastD emptyStage).output_columns →
      ∀ hdr, executeHeader storage ctx commands false = Except.ok hdr → name ∉ hdr) := by
  obtain ⟨hval, hne, staged, hstg, hstages, hsel⟩ :=
    prepare_ok_elim storage ctx commands false p hp
  have hbuilt : ∀ st ∈ p.stages.drop 1, ∃ y, st = buildStageChain storage y := by
    intro st hst
    rw [hstages, backwardPass, List.drop_one, List.tail_reverse, List.mem_reverse] at hst
    cases hrev : (forwardPass storage.getAllPhysical staged ∅).reverse with
    | nil =>
      rw [hrev] at hst
      cases hst
    | cons a rest =>
      rw [hrev] at hst
      exact backwardGo_dropLast_built storage rest a st hst
  have hhd : selectHeader p.select = (p.stages.headD emptyStage).output_columns := by
    rw [hsel]
    exact selectHeader_firstStageSelect _
  have hmain : addStreamsForLaterStagesHeader p.stages (selectHeader p.select)
      = (p.stages.getLastD emptyStage).output_columns := by
    unfold addStreamsForLaterStagesHeader
    cases hstg2 : p.stages with
    | nil =>
      rw [hstg2] at hhd
      simpa using hhd
    | cons x tail =>
      cases tail with
      | nil =>
        show selectHeader p.select = _
        rw [hstg2] at hhd
        rw [hhd]
        rfl
      | cons z zs =>
        show (z :: zs).foldl stageHeader (selectHeader p.select) = _
        rw [foldl_stageHeader_built storage (z :: zs) _
          (by
            intro w hw
            refine hbuilt w ?_
            rw [hstg2]
            simpa using hw)
          (by simp)]
        rw [getLastD_cons_of_ne_nil x (z :: zs) (by simp) emptyStage]
  have hexec : executeHeader storage ctx commands false
      = Except.ok ((p.stages.getLastD emptyStage).output_columns) := by
    unfold executeHeader
    rw [hp]
    show Except.ok (addStreamsForLaterStagesHeader p.stages (selectHeader p.select)) = _
    rw [hmain]
  refine ⟨hexec, ?_, ?_, ?_⟩
  · have hp2 : prepare storage ctx commands false true = Except.ok p := hp
    unfold validateHeader
    rw [hp2]
    show Except.ok (addStreamsForLaterStagesHeader p.stages (selectHeader p.select)) = _
    rw [hmain]
  · intro st hst
    rcases hbuilt st hst with ⟨y, hy⟩
    subst hy
    have hchain : (buildStageChain storage y).expressions_chain
        = (filterSteps y ++ updateSteps storage y) ++ [pruneStep y] := by
      show filterSteps y ++ updateSteps storage y ++ [pruneStep y] = _
      rw [List.append_assoc]
    rw [hchain, List.getLastD_eq_getLast?, List.getLast?_concat]
    show ((pruneStep y).required_output).toFinset = _
    exact toFinset_sortedNames y.output_columns
  · intro st hst name hname hnot hdr hhdr
    rw [hexec] at hhdr
    injection hhdr with hhdr
    rw [← hhdr]
    exact hnot

/-- Witness for the C8 theorem: the single-update example's final stream
columns are exactly the last stage's output set. -/
theorem final_stream_columns_witness :
    executeHeader exStorage {} [exUpdateCommand] false
      = Except.ok (((preparedOf exStorage [exUpdateCommand]).stages.getLastD
          emptyStage).output_columns) :=
  (final_stream_columns exStorage {} [exUpdateCommand]
    (preparedOf exStorage [exUpdateCommand]) rfl).1

end ClickHouseMutations


